import Mathlib

/-!
# Verification of the CellProfiler `CalculateImageOverlap` comparison engine

This file gives a shallow embedding, in Lean 4, of the core comparison /
statistics engine of `cellprofiler/modules/calculateimageoverlap.py`:

* the pixel-mode confusion counts and derived ratios of `measure_image`;
* the contingency-table Rand / adjusted Rand computation `compute_rand_index`;
* the sparse ("IJV") Omega-index generalization `compute_rand_index_ijv`;
* the object matching and object-mode aggregation of `measure_objects`.

Modelling conventions:

* 2-D boolean arrays are modelled as lists of per-pixel tuples; label images
  restricted to the validity mask are modelled as lists of per-pixel label
  pairs (the mask extraction `labels[mask]` keeps both images aligned, so a
  single list of pairs is faithful).
* IEEE floating point arithmetic on the small integers produced by pixel
  counting is exact, so it is modelled by `ℚ`.  A float division whose
  denominator is `0` produces `nan` or `inf` in numpy (never an exception);
  this is modelled by `qdiv : ℚ → ℚ → Option ℚ` returning `none`.  In every
  place where the source can divide by zero the numerator is also zero
  (`0.0/0.0 = nan`), so `none` faithfully stands for NaN.
* `np.max` of an empty array raises in numpy; the embedding totalizes it to
  `0` (`maxList`).  This difference is only observable on completely empty
  inputs, which none of the verified claims depends on.
-/

namespace ImageOverlap

/-- Division as performed by numpy floats on the values appearing in this
module: a zero denominator yields NaN (modelled `none`), otherwise the exact
rational quotient. -/
def qdiv (a b : ℚ) : Option ℚ := if b = 0 then none else some (a / b)

/-- `np.max` over a list of naturals, totalized with default `0`. -/
def maxList (l : List ℕ) : ℕ := l.foldr max 0

/-- `choose2(x) = x * (x - 1) / 2`, the number of unordered pairs of `x`
things, computed in float (exact here, hence `ℚ`) as in the source. -/
def choose2 (x : ℚ) : ℚ := x * (x - 1) / 2

theorem maxList_le_of_mem {l : List ℕ} {a : ℕ} (h : a ∈ l) : a ≤ maxList l := by
  induction l with
  | nil => cases h
  | cons b t ih =>
    rcases List.mem_cons.1 h with rfl | h
    · exact le_max_left _ _
    · exact le_trans (ih h) (le_max_right _ _)

/-!
## Pixel mode: `measure_image` (source lines 164-253)

A pixel is a triple `(test, ground_truth, valid)`.  The source computes four
boolean arrays (`test & gt`, `test & ~gt`, `~test & gt`, `~test & ~gt`),
clears them outside the mask, and sums them.  `pxCount f px` models
"compute `f` per pixel, clear outside the mask, and sum".
-/

/-- A pixel of the pixel-mode comparison: `(test, ground_truth, valid)`. -/
abbrev Pixel := Bool × Bool × Bool

/-- Per-pixel boolean combination cleared outside the mask, then summed:
models e.g. `false_positives = test & ~gt; false_positives[~mask] = False;
np.sum(false_positives)`. -/
def pxCount (f : Bool → Bool → Bool) (px : List Pixel) : ℕ :=
  (px.map (fun p => if !p.2.2 then false else f p.1 p.2.1)).count true

/-- `true_positive_count` of `measure_image`. -/
def true_positive_count (px : List Pixel) : ℕ := pxCount (fun t g => t && g) px

/-- `false_positive_count` of `measure_image`. -/
def false_positive_count (px : List Pixel) : ℕ := pxCount (fun t g => t && !g) px

/-- `false_negative_count` of `measure_image`. -/
def false_negative_count (px : List Pixel) : ℕ := pxCount (fun t g => !t && g) px

/-- `true_negative_count` of `measure_image`. -/
def true_negative_count (px : List Pixel) : ℕ := pxCount (fun t g => !t && !g) px

/-- `precision` of `measure_image`: `tp / (tp + fp)`, or `1.0` when no pixel
is labeled. -/
def mi_precision (px : List Pixel) : ℚ :=
  let labeled := true_positive_count px + false_positive_count px
  if labeled = 0 then 1 else (true_positive_count px : ℚ) / (labeled : ℚ)

/-- `recall` of `measure_image`: `tp / (tp + fn)`, or `1.0` when there is no
actual positive. -/
def mi_recall (px : List Pixel) : ℚ :=
  let true_count := true_positive_count px + false_negative_count px
  if true_count = 0 then 1 else (true_positive_count px : ℚ) / (true_count : ℚ)

/-- `f_factor` of `measure_image`: `2pr/(p+r)`, or `0.0` when `p + r = 0`. -/
def mi_f_factor (px : List Pixel) : ℚ :=
  if mi_precision px + mi_recall px = 0 then 0
  else 2 * mi_precision px * mi_recall px / (mi_precision px + mi_recall px)

/-- `false_positive_rate` of `measure_image`: `fp / (fp + tn)`, or `0.0`. -/
def mi_false_positive_rate (px : List Pixel) : ℚ :=
  let negative := false_positive_count px + true_negative_count px
  if negative = 0 then 0 else (false_positive_count px : ℚ) / (negative : ℚ)

/-- `false_negative_rate` of `measure_image`: `fn / (tp + fn)`, or `0.0`. -/
def mi_false_negative_rate (px : List Pixel) : ℚ :=
  let true_count := true_positive_count px + false_negative_count px
  if true_count = 0 then 0 else (false_negative_count px : ℚ) / (true_count : ℚ)

/-!
Claim-side confusion counts: the validity-restricted counts, written directly
as filters (the claim's "validity-restricted confusion counts").
-/

/-- Claim-side `tp`: number of valid pixels that are foreground in both. -/
def tpSpec (px : List Pixel) : ℕ :=
  (px.filter (fun p => p.2.2 && p.1 && p.2.1)).length

/-- Claim-side `fp`: valid pixels foreground in test, background in truth. -/
def fpSpec (px : List Pixel) : ℕ :=
  (px.filter (fun p => p.2.2 && p.1 && !p.2.1)).length

/-- Claim-side `fn`: valid pixels background in test, foreground in truth. -/
def fnSpec (px : List Pixel) : ℕ :=
  (px.filter (fun p => p.2.2 && !p.1 && p.2.1)).length

/-- Claim-side `tn`: valid pixels background in both. -/
def tnSpec (px : List Pixel) : ℕ :=
  (px.filter (fun p => p.2.2 && !p.1 && !p.2.1)).length

theorem pxCount_eq_filter (f : Bool → Bool → Bool) (px : List Pixel) :
    pxCount f px = (px.filter (fun p => p.2.2 && f p.1 p.2.1)).length := by
  induction px with
  | nil => rfl
  | cons p t ih =>
    obtain ⟨a, b, c⟩ := p
    cases c <;> cases hfa : f a b <;>
      simp [pxCount, List.count_cons, List.filter_cons, hfa] at ih ⊢ <;> omega

theorem true_positive_count_eq (px : List Pixel) :
    true_positive_count px = tpSpec px := by
  rw [true_positive_count, pxCount_eq_filter, tpSpec]
  congr 1
  exact List.filter_congr fun p _ => by
    obtain ⟨a, b, c⟩ := p; cases a <;> cases b <;> cases c <;> rfl

theorem false_positive_count_eq (px : List Pixel) :
    false_positive_count px = fpSpec px := by
  rw [false_positive_count, pxCount_eq_filter, fpSpec]
  congr 1
  exact List.filter_congr fun p _ => by
    obtain ⟨a, b, c⟩ := p; cases a <;> cases b <;> cases c <;> rfl

theorem false_negative_count_eq (px : List Pixel) :
    false_negative_count px = fnSpec px := by
  rw [false_negative_count, pxCount_eq_filter, fnSpec]
  congr 1
  exact List.filter_congr fun p _ => by
    obtain ⟨a, b, c⟩ := p; cases a <;> cases b <;> cases c <;> rfl

theorem true_negative_count_eq (px : List Pixel) :
    true_negative_count px = tnSpec px := by
  rw [true_negative_count, pxCount_eq_filter, tnSpec]
  congr 1
  exact List.filter_congr fun p _ => by
    obtain ⟨a, b, c⟩ := p; cases a <;> cases b <;> cases c <;> rfl

/-- **C5.** For every pixel list (two equal-shape binary masks with a validity
mask), the five pixel-mode ratios follow the claimed formulas with the claimed
degenerate-case fallbacks (`precision`, `recall` fall back to `1.0`,
`f_factor`, the two rates to `0.0`).  The functions are total, so no
exception is raised for any degenerate input. -/
theorem c5_pixel_ratios (px : List Pixel) :
    mi_precision px =
      (if 0 < tpSpec px + fpSpec px
       then (tpSpec px : ℚ) / ((tpSpec px + fpSpec px : ℕ) : ℚ) else 1) ∧
    mi_recall px =
      (if 0 < tpSpec px + fnSpec px
       then (tpSpec px : ℚ) / ((tpSpec px + fnSpec px : ℕ) : ℚ) else 1) ∧
    mi_f_factor px =
      (if 0 < mi_precision px + mi_recall px
       then 2 * mi_precision px * mi_recall px / (mi_precision px + mi_recall px)
       else 0) ∧
    mi_false_positive_rate px =
      (if 0 < fpSpec px + tnSpec px
       then (fpSpec px : ℚ) / ((fpSpec px + tnSpec px : ℕ) : ℚ) else 0) ∧
    mi_false_negative_rate px =
      (if 0 < tpSpec px + fnSpec px
       then (fnSpec px : ℚ) / ((tpSpec px + fnSpec px : ℕ) : ℚ) else 0) := by
  have htp := true_positive_count_eq px
  have hfp := false_positive_count_eq px
  have hfn := false_negative_count_eq px
  have htn := true_negative_count_eq px
  refine ⟨?_, ?_, ?_, ?_, ?_⟩
  · rw [mi_precision, htp, hfp]
    rcases Nat.eq_zero_or_pos (tpSpec px + fpSpec px) with h | h
    · simp [h]
    · rw [if_neg (by omega), if_pos h]
  · rw [mi_recall, htp, hfn]
    rcases Nat.eq_zero_or_pos (tpSpec px + fnSpec px) with h | h
    · simp [h]
    · rw [if_neg (by omega), if_pos h]
  · rw [mi_f_factor]
    have hp : 0 ≤ mi_precision px := by
      rw [mi_precision]; split
      · norm_num
      · exact div_nonneg (Nat.cast_nonneg _) (Nat.cast_nonneg _)
    have hr : 0 ≤ mi_recall px := by
      rw [mi_recall]; split
      · norm_num
      · exact div_nonneg (Nat.cast_nonneg _) (Nat.cast_nonneg _)
    rcases eq_or_ne (mi_precision px + mi_recall px) 0 with h | h
    · simp [h]
    · rw [if_neg h, if_pos (lt_of_le_of_ne (by linarith) (Ne.symm h))]
  · rw [mi_false_positive_rate, hfp, htn]
    rcases Nat.eq_zero_or_pos (fpSpec px + tnSpec px) with h | h
    · simp [h]
    · rw [if_neg (by omega), if_pos h]
  · rw [mi_false_negative_rate, htp, hfn]
    rcases Nat.eq_zero_or_pos (tpSpec px + fnSpec px) with h | h
    · simp [h]
    · rw [if_neg (by omega), if_pos h]

/-!
## `compute_rand_index` (source lines 454-548)

The two label images restricted to the validity mask (`labels[mask]`) form two
aligned equal-length label sequences; a valid pixel is modelled as the pair
`(ground-truth label, test label)`.  The contingency matrix built by
`coo_matrix((ones, (ground_truth_labels, test_labels))).toarray()` has shape
`(max gt label + 1, max test label + 1)` and entry `(i, j)` equal to the
number of pixels with labels `(i, j)`.
-/

/-- A valid pixel of the label-image comparison:
`(ground-truth label, test label)`. -/
abbrev LPair := ℕ × ℕ

/-- Contingency matrix entry `N(i,j)`: number of valid pixels with
ground-truth label `i` and test label `j` (a float array in the source). -/
def N_ij (px : List LPair) (i j : ℕ) : ℚ :=
  ((px.filter (fun p => p.1 == i && p.2 == j)).length : ℚ)

/-- Number of rows of the dense contingency array minus one
(maximum ground-truth label). -/
def maxGtLabel (px : List LPair) : ℕ := maxList (px.map Prod.fst)

/-- Number of columns of the dense contingency array minus one. -/
def maxTestLabel (px : List LPair) : ℕ := maxList (px.map Prod.snd)

/-- `A = np.sum(choose2(N_ij))` over all cells of the dense array. -/
def A_pairs (px : List LPair) : ℚ :=
  ∑ i ∈ Finset.range (maxGtLabel px + 1), ∑ j ∈ Finset.range (maxTestLabel px + 1),
    choose2 (N_ij px i j)

/-- Row marginal `N_i = np.sum(N_ij, 1)`. -/
def N_row (px : List LPair) (i : ℕ) : ℚ :=
  ∑ j ∈ Finset.range (maxTestLabel px + 1), N_ij px i j

/-- Column marginal `N_j = np.sum(N_ij, 0)`. -/
def N_col (px : List LPair) (j : ℕ) : ℚ :=
  ∑ i ∈ Finset.range (maxGtLabel px + 1), N_ij px i j

/-- `C = np.sum((N_i[:, np.newaxis] - N_ij) * N_ij) / 2`. -/
def C_pairs (px : List LPair) : ℚ :=
  (∑ i ∈ Finset.range (maxGtLabel px + 1), ∑ j ∈ Finset.range (maxTestLabel px + 1),
    (N_row px i - N_ij px i j) * N_ij px i j) / 2

/-- `D = np.sum((N_j[np.newaxis, :] - N_ij) * N_ij) / 2`. -/
def D_pairs (px : List LPair) : ℚ :=
  (∑ i ∈ Finset.range (maxGtLabel px + 1), ∑ j ∈ Finset.range (maxTestLabel px + 1),
    (N_col px j - N_ij px i j) * N_ij px i j) / 2

/-- `total = choose2(len(test_labels))`. -/
def totalPairs (px : List LPair) : ℚ := choose2 (px.length : ℚ)

/-- `B = total - A - C - D`. -/
def B_pairs (px : List LPair) : ℚ :=
  totalPairs px - A_pairs px - C_pairs px - D_pairs px

/-- `expected_index = np.sum(choose2(N_i)) * np.sum(choose2(N_j))`. -/
def expected_index (px : List LPair) : ℚ :=
  (∑ i ∈ Finset.range (maxGtLabel px + 1), choose2 (N_row px i)) *
    (∑ j ∈ Finset.range (maxTestLabel px + 1), choose2 (N_col px j))

/-- `max_index = (np.sum(choose2(N_i)) + np.sum(choose2(N_j))) * total / 2`. -/
def max_index (px : List LPair) : ℚ :=
  ((∑ i ∈ Finset.range (maxGtLabel px + 1), choose2 (N_row px i)) +
    (∑ j ∈ Finset.range (maxTestLabel px + 1), choose2 (N_col px j))) *
      totalPairs px / 2

/-- `compute_rand_index` (source lines 454-548): returns the pair
`(rand_index, adjusted_rand_index)`; `none` models NaN. -/
def compute_rand_index (px : List LPair) : Option ℚ × Option ℚ :=
  if 0 < px.length then
    (qdiv (A_pairs px + B_pairs px) (totalPairs px),
     qdiv (A_pairs px * totalPairs px - expected_index px)
          (max_index px - expected_index px))
  else (none, none)

/-!
Claim-side quantities for C6: the same sums written over the finite sets of
labels actually observed in the input, which is how the claim's "contingency
table over valid pixels" reads.  The bridge to the dense-array sums of the
code is the support argument `N(i,j) = 0` for unobserved labels.
-/

/-- The set of observed ground-truth labels (label 0 included when
observed). -/
def gtLabelSet (px : List LPair) : Finset ℕ := (px.map Prod.fst).toFinset

/-- The set of observed test labels. -/
def testLabelSet (px : List LPair) : Finset ℕ := (px.map Prod.snd).toFinset

/-- Claim-side `A`: sum of `choose2(N[i,j])` over observed label pairs. -/
def A_spec (px : List LPair) : ℚ :=
  ∑ i ∈ gtLabelSet px, ∑ j ∈ testLabelSet px, choose2 (N_ij px i j)

/-- Claim-side row marginal. -/
def rowSum_spec (px : List LPair) (i : ℕ) : ℚ :=
  ∑ j ∈ testLabelSet px, N_ij px i j

/-- Claim-side column marginal. -/
def colSum_spec (px : List LPair) (j : ℕ) : ℚ :=
  ∑ i ∈ gtLabelSet px, N_ij px i j

/-- Claim-side `C`: pairs together in ground truth, apart in test. -/
def C_spec (px : List LPair) : ℚ :=
  (∑ i ∈ gtLabelSet px, ∑ j ∈ testLabelSet px,
    (rowSum_spec px i - N_ij px i j) * N_ij px i j) / 2

/-- Claim-side `D`: pairs apart in ground truth, together in test. -/
def D_spec (px : List LPair) : ℚ :=
  (∑ i ∈ gtLabelSet px, ∑ j ∈ testLabelSet px,
    (colSum_spec px j - N_ij px i j) * N_ij px i j) / 2

/-- Claim-side `expected = Σchoose2(N_i) · Σchoose2(N_j)`. -/
def expected_spec (px : List LPair) : ℚ :=
  (∑ i ∈ gtLabelSet px, choose2 (rowSum_spec px i)) *
    (∑ j ∈ testLabelSet px, choose2 (colSum_spec px j))

/-- Claim-side `max_index = (Σchoose2(N_i) + Σchoose2(N_j)) · total / 2`. -/
def max_index_spec (px : List LPair) : ℚ :=
  ((∑ i ∈ gtLabelSet px, choose2 (rowSum_spec px i)) +
    (∑ j ∈ testLabelSet px, choose2 (colSum_spec px j))) * totalPairs px / 2

theorem choose2_zero : choose2 0 = 0 := by
  simp [choose2]

theorem N_ij_eq_zero_left {px : List LPair} {i j : ℕ} (h : i ∉ gtLabelSet px) :
    N_ij px i j = 0 := by
  rw [N_ij]
  norm_cast
  rw [List.length_eq_zero, List.filter_eq_nil_iff]
  intro p hp hq
  simp only [Bool.and_eq_true, beq_iff_eq] at hq
  exact h (by rw [gtLabelSet, List.mem_toFinset]
              exact List.mem_map.2 ⟨p, hp, hq.1⟩)

theorem N_ij_eq_zero_right {px : List LPair} {i j : ℕ} (h : j ∉ testLabelSet px) :
    N_ij px i j = 0 := by
  rw [N_ij]
  norm_cast
  rw [List.length_eq_zero, List.filter_eq_nil_iff]
  intro p hp hq
  simp only [Bool.and_eq_true, beq_iff_eq] at hq
  exact h (by rw [testLabelSet, List.mem_toFinset]
              exact List.mem_map.2 ⟨p, hp, hq.2⟩)

theorem gtLabelSet_subset_range (px : List LPair) :
    gtLabelSet px ⊆ Finset.range (maxGtLabel px + 1) := by
  intro i hi
  rw [gtLabelSet, List.mem_toFinset] at hi
  exact Finset.mem_range.2 (Nat.lt_succ_of_le (maxList_le_of_mem hi))

theorem testLabelSet_subset_range (px : List LPair) :
    testLabelSet px ⊆ Finset.range (maxTestLabel px + 1) := by
  intro j hj
  rw [testLabelSet, List.mem_toFinset] at hj
  exact Finset.mem_range.2 (Nat.lt_succ_of_le (maxList_le_of_mem hj))

/-- Inner sums over the dense column range restrict to observed test labels
whenever the summand vanishes on unobserved columns. -/
theorem sum_testRange_eq {px : List LPair} (f : ℕ → ℚ)
    (hf : ∀ j, j ∉ testLabelSet px → f j = 0) :
    ∑ j ∈ Finset.range (maxTestLabel px + 1), f j = ∑ j ∈ testLabelSet px, f j :=
  (Finset.sum_subset (testLabelSet_subset_range px) fun j _ hj => hf j hj).symm

theorem sum_gtRange_eq {px : List LPair} (f : ℕ → ℚ)
    (hf : ∀ i, i ∉ gtLabelSet px → f i = 0) :
    ∑ i ∈ Finset.range (maxGtLabel px + 1), f i = ∑ i ∈ gtLabelSet px, f i :=
  (Finset.sum_subset (gtLabelSet_subset_range px) fun i _ hi => hf i hi).symm

theorem N_row_eq_rowSum_spec (px : List LPair) (i : ℕ) :
    N_row px i = rowSum_spec px i :=
  sum_testRange_eq _ fun _ hj => N_ij_eq_zero_right hj

theorem N_col_eq_colSum_spec (px : List LPair) (j : ℕ) :
    N_col px j = colSum_spec px j :=
  sum_gtRange_eq _ fun _ hi => N_ij_eq_zero_left hi

theorem A_pairs_eq_spec (px : List LPair) : A_pairs px = A_spec px := by
  rw [A_pairs, A_spec]
  rw [sum_gtRange_eq (fun i => ∑ j ∈ Finset.range (maxTestLabel px + 1),
        choose2 (N_ij px i j))
      (fun i hi => by
        apply Finset.sum_eq_zero
        intro j _
        rw [N_ij_eq_zero_left hi, choose2_zero])]
  exact Finset.sum_congr rfl fun i _ =>
    sum_testRange_eq _ fun j hj => by rw [N_ij_eq_zero_right hj, choose2_zero]

theorem C_pairs_eq_spec (px : List LPair) : C_pairs px = C_spec px := by
  rw [C_pairs, C_spec]
  congr 1
  rw [sum_gtRange_eq (fun i => ∑ j ∈ Finset.range (maxTestLabel px + 1),
        (N_row px i - N_ij px i j) * N_ij px i j)
      (fun i hi => by
        apply Finset.sum_eq_zero
        intro j _
        rw [N_ij_eq_zero_left hi, mul_zero])]
  refine Finset.sum_congr rfl fun i _ => ?_
  rw [sum_testRange_eq (fun j => (N_row px i - N_ij px i j) * N_ij px i j)
      (fun j hj => by dsimp only; rw [N_ij_eq_zero_right hj, mul_zero])]
  exact Finset.sum_congr rfl fun j _ => by rw [N_row_eq_rowSum_spec]

theorem D_pairs_eq_spec (px : List LPair) : D_pairs px = D_spec px := by
  rw [D_pairs, D_spec]
  congr 1
  rw [sum_gtRange_eq (fun i => ∑ j ∈ Finset.range (maxTestLabel px + 1),
        (N_col px j - N_ij px i j) * N_ij px i j)
      (fun i hi => by
        apply Finset.sum_eq_zero
        intro j _
        rw [N_ij_eq_zero_left hi, mul_zero])]
  refine Finset.sum_congr rfl fun i _ => ?_
  rw [sum_testRange_eq (fun j => (N_col px j - N_ij px i j) * N_ij px i j)
      (fun j hj => by dsimp only; rw [N_ij_eq_zero_right hj, mul_zero])]
  exact Finset.sum_congr rfl fun j _ => by rw [N_col_eq_colSum_spec]

theorem sum_choose2_row_eq (px : List LPair) :
    ∑ i ∈ Finset.range (maxGtLabel px + 1), choose2 (N_row px i) =
      ∑ i ∈ gtLabelSet px, choose2 (rowSum_spec px i) := by
  rw [sum_gtRange_eq (fun i => choose2 (N_row px i))
      (fun i hi => by
        dsimp only
        rw [N_row]
        rw [Finset.sum_eq_zero fun j _ => N_ij_eq_zero_left hi, choose2_zero])]
  exact Finset.sum_congr rfl fun i _ => by rw [N_row_eq_rowSum_spec]

theorem sum_choose2_col_eq (px : List LPair) :
    ∑ j ∈ Finset.range (maxTestLabel px + 1), choose2 (N_col px j) =
      ∑ j ∈ testLabelSet px, choose2 (colSum_spec px j) := by
  rw [sum_testRange_eq (fun j => choose2 (N_col px j))
      (fun j hj => by
        dsimp only
        rw [N_col]
        rw [Finset.sum_eq_zero fun i _ => N_ij_eq_zero_right hj, choose2_zero])]
  exact Finset.sum_congr rfl fun j _ => by rw [N_col_eq_colSum_spec]

theorem expected_index_eq_spec (px : List LPair) :
    expected_index px = expected_spec px := by
  rw [expected_index, expected_spec, sum_choose2_row_eq, sum_choose2_col_eq]

theorem max_index_eq_spec (px : List LPair) : max_index px = max_index_spec px := by
  rw [max_index, max_index_spec, sum_choose2_row_eq, sum_choose2_col_eq]

/-- **C6.**  For every nonempty list of valid-pixel label pairs,
`compute_rand_index` returns
`rand_index = (A + B) / total` with `B = total - A - C - D` and
`adjusted_rand_index = (A·total - expected) / (max_index - expected)`, where
`A`, `C`, `D`, `expected = Σchoose2(N_i)·Σchoose2(N_j)` and
`max_index = (Σchoose2(N_i)+Σchoose2(N_j))·total/2` are computed from the
label-pair contingency table over the observed labels (background label 0
included as an ordinary label value) and `total = choose2(#valid pixels)`.
Divisions are the numpy float divisions (`qdiv`). -/
theorem c6_contingency_formulas (px : List LPair) (h : px ≠ []) :
    compute_rand_index px =
      (qdiv (A_spec px + (totalPairs px - A_spec px - C_spec px - D_spec px))
            (totalPairs px),
       qdiv (A_spec px * totalPairs px - expected_spec px)
            (max_index_spec px - expected_spec px)) := by
  rw [compute_rand_index, if_pos (List.length_pos.2 h), B_pairs]
  rw [A_pairs_eq_spec, C_pairs_eq_spec, D_pairs_eq_spec, expected_index_eq_spec,
    max_index_eq_spec]

/-- **C6 witness**: the two-pixel input `[(0,0),(1,1)]` satisfies the
hypothesis, and the formulas evaluate there (`rand = 1`, `adjusted` NaN-free
denominator check included by evaluation). -/
theorem c6_contingency_formulas_witness :
    ([((0 : ℕ), (0 : ℕ)), (1, 1)] : List LPair) ≠ [] ∧
      compute_rand_index [((0 : ℕ), (0 : ℕ)), (1, 1)] =
        (qdiv (A_spec [((0 : ℕ), (0 : ℕ)), (1, 1)] +
                (totalPairs [((0 : ℕ), (0 : ℕ)), (1, 1)] -
                  A_spec [((0 : ℕ), (0 : ℕ)), (1, 1)] -
                  C_spec [((0 : ℕ), (0 : ℕ)), (1, 1)] -
                  D_spec [((0 : ℕ), (0 : ℕ)), (1, 1)]))
              (totalPairs [((0 : ℕ), (0 : ℕ)), (1, 1)]),
         qdiv (A_spec [((0 : ℕ), (0 : ℕ)), (1, 1)] *
                totalPairs [((0 : ℕ), (0 : ℕ)), (1, 1)] -
                expected_spec [((0 : ℕ), (0 : ℕ)), (1, 1)])
              (max_index_spec [((0 : ℕ), (0 : ℕ)), (1, 1)] -
                expected_spec [((0 : ℕ), (0 : ℕ)), (1, 1)])) :=
  ⟨by decide, c6_contingency_formulas _ (by decide)⟩

/-!
Symmetry of `compute_rand_index` in its two label sequences (first half of
C8): swapping the ground-truth and test label images transposes the
contingency matrix and leaves both returned indices unchanged.
-/

theorem N_ij_swap (px : List LPair) (i j : ℕ) :
    N_ij (px.map Prod.swap) i j = N_ij px j i := by
  rw [N_ij, N_ij, List.filter_map, List.length_map]
  have : List.filter ((fun p => p.1 == i && p.2 == j) ∘ Prod.swap) px =
      List.filter (fun p => p.1 == j && p.2 == i) px :=
    List.filter_congr fun p _ => by
      simp only [Function.comp_apply, Prod.fst_swap, Prod.snd_swap]
      exact Bool.and_comm _ _
  rw [this]

theorem maxGtLabel_swap (px : List LPair) :
    maxGtLabel (px.map Prod.swap) = maxTestLabel px := by
  rw [maxGtLabel, maxTestLabel, List.map_map]
  rfl

theorem maxTestLabel_swap (px : List LPair) :
    maxTestLabel (px.map Prod.swap) = maxGtLabel px := by
  rw [maxGtLabel, maxTestLabel, List.map_map]
  rfl

theorem A_pairs_swap (px : List LPair) : A_pairs (px.map Prod.swap) = A_pairs px := by
  rw [A_pairs, A_pairs, maxGtLabel_swap, maxTestLabel_swap, Finset.sum_comm]
  exact Finset.sum_congr rfl fun i _ => Finset.sum_congr rfl fun j _ => by
    rw [N_ij_swap]

theorem N_row_swap (px : List LPair) (i : ℕ) :
    N_row (px.map Prod.swap) i = N_col px i := by
  rw [N_row, N_col, maxTestLabel_swap]
  exact Finset.sum_congr rfl fun j _ => by rw [N_ij_swap]

theorem N_col_swap (px : List LPair) (j : ℕ) :
    N_col (px.map Prod.swap) j = N_row px j := by
  rw [N_col, N_row, maxGtLabel_swap]
  exact Finset.sum_congr rfl fun i _ => by rw [N_ij_swap]

theorem C_pairs_swap (px : List LPair) : C_pairs (px.map Prod.swap) = D_pairs px := by
  rw [C_pairs, D_pairs, maxGtLabel_swap, maxTestLabel_swap]
  congr 1
  rw [Finset.sum_comm]
  exact Finset.sum_congr rfl fun i _ => Finset.sum_congr rfl fun j _ => by
    rw [N_ij_swap, N_row_swap]

theorem D_pairs_swap (px : List LPair) : D_pairs (px.map Prod.swap) = C_pairs px := by
  rw [D_pairs, C_pairs, maxGtLabel_swap, maxTestLabel_swap]
  congr 1
  rw [Finset.sum_comm]
  exact Finset.sum_congr rfl fun i _ => Finset.sum_congr rfl fun j _ => by
    rw [N_ij_swap, N_col_swap]

theorem totalPairs_swap (px : List LPair) :
    totalPairs (px.map Prod.swap) = totalPairs px := by
  rw [totalPairs, totalPairs, List.length_map]

theorem expected_index_swap (px : List LPair) :
    expected_index (px.map Prod.swap) = expected_index px := by
  rw [expected_index, expected_index, maxGtLabel_swap, maxTestLabel_swap, mul_comm]
  congr 1
  · exact Finset.sum_congr rfl fun j _ => by rw [N_col_swap]
  · exact Finset.sum_congr rfl fun i _ => by rw [N_row_swap]

theorem max_index_swap (px : List LPair) :
    max_index (px.map Prod.swap) = max_index px := by
  rw [max_index, max_index, maxGtLabel_swap, maxTestLabel_swap, totalPairs_swap]
  congr 2
  rw [add_comm]
  congr 1
  · exact Finset.sum_congr rfl fun j _ => by rw [N_col_swap]
  · exact Finset.sum_congr rfl fun i _ => by rw [N_row_swap]

/-- Swapping the two label images leaves `compute_rand_index` unchanged. -/
theorem compute_rand_index_swap (px : List LPair) :
    compute_rand_index (px.map Prod.swap) = compute_rand_index px := by
  rw [compute_rand_index, compute_rand_index, List.length_map, B_pairs, B_pairs,
    A_pairs_swap, C_pairs_swap, D_pairs_swap, totalPairs_swap, expected_index_swap,
    max_index_swap]
  split
  · rw [sub_right_comm (totalPairs px - A_pairs px) (D_pairs px) (C_pairs px)]
  · rfl

/-!
## C9: identical masks, fully valid

`measure_image` on a test image identical to the ground truth under an
all-true mask: pixels are `(v, v, true)`; the connected-component labeling
(`scipy.ndimage.label`, an external collaborator) is applied to the *same*
masked foreground for both images, so `compute_rand_index` receives two
identical label sequences, modelled as `(v, v)` pairs.
-/

/-- Pixels of a mask compared against an identical copy of itself under an
all-true validity mask. -/
def selfPixels (m : List Bool) : List Pixel := m.map (fun v => (v, v, true))

/-- Identical label sequences, as the list of per-pixel label pairs. -/
def diagPairs (L : List ℕ) : List LPair := L.map (fun v => (v, v))

/-- `Σ_i choose2(class size of label i)`: the shared value of `A`, of
`Σ choose2(N_i)` and of `Σ choose2(N_j)` when both labelings are the same
list `L`. -/
def sumChoose2Classes (L : List ℕ) : ℚ :=
  ∑ i ∈ Finset.range (maxList L + 1), choose2 ((L.count i : ℚ))

theorem N_ij_diagPairs (L : List ℕ) (i j : ℕ) :
    N_ij (diagPairs L) i j = if i = j then (L.count i : ℚ) else 0 := by
  rw [N_ij, diagPairs, List.filter_map, List.length_map]
  split
  · next h =>
    subst h
    rw [List.count_eq_countP, List.countP_eq_length_filter]
    have : List.filter ((fun p => p.1 == i && p.2 == i) ∘ fun v => (v, v)) L =
        List.filter (· == i) L :=
      List.filter_congr fun v _ => by simp
    rw [this]
  · next h =>
    norm_cast
    rw [List.length_eq_zero, List.filter_eq_nil_iff]
    intro v _ hv
    simp only [Function.comp_apply, Bool.and_eq_true, beq_iff_eq] at hv
    exact h (hv.1.symm.trans hv.2)

theorem maxGtLabel_diagPairs (L : List ℕ) : maxGtLabel (diagPairs L) = maxList L := by
  rw [maxGtLabel, diagPairs, List.map_map,
    show (Prod.fst ∘ fun v : ℕ => (v, v)) = id from rfl, List.map_id]

theorem maxTestLabel_diagPairs (L : List ℕ) :
    maxTestLabel (diagPairs L) = maxList L := by
  rw [maxTestLabel, diagPairs, List.map_map,
    show (Prod.snd ∘ fun v : ℕ => (v, v)) = id from rfl, List.map_id]

theorem A_pairs_diagPairs (L : List ℕ) :
    A_pairs (diagPairs L) = sumChoose2Classes L := by
  rw [A_pairs, sumChoose2Classes, maxGtLabel_diagPairs, maxTestLabel_diagPairs]
  refine Finset.sum_congr rfl fun i hi => ?_
  have h1 : ∀ j ∈ Finset.range (maxList L + 1),
      choose2 (N_ij (diagPairs L) i j) =
        if i = j then choose2 ((L.count i : ℚ)) else 0 := fun j _ => by
    rw [N_ij_diagPairs, apply_ite choose2, choose2_zero]
  rw [Finset.sum_congr rfl h1]
  rw [Finset.sum_ite_eq (Finset.range (maxList L + 1)) i
    (fun _ => choose2 ((L.count i : ℚ))), if_pos hi]

theorem N_row_diagPairs (L : List ℕ) {i : ℕ} (hi : i ∈ Finset.range (maxList L + 1)) :
    N_row (diagPairs L) i = (L.count i : ℚ) := by
  rw [N_row, maxTestLabel_diagPairs]
  have h1 : ∀ j ∈ Finset.range (maxList L + 1),
      N_ij (diagPairs L) i j = if i = j then (L.count i : ℚ) else 0 := fun j _ => by
    rw [N_ij_diagPairs]
  rw [Finset.sum_congr rfl h1]
  rw [Finset.sum_ite_eq (Finset.range (maxList L + 1)) i
    (fun _ => (L.count i : ℚ)), if_pos hi]

theorem N_col_diagPairs (L : List ℕ) {j : ℕ} (hj : j ∈ Finset.range (maxList L + 1)) :
    N_col (diagPairs L) j = (L.count j : ℚ) := by
  rw [N_col, maxGtLabel_diagPairs]
  have h1 : ∀ i ∈ Finset.range (maxList L + 1),
      N_ij (diagPairs L) i j = if j = i then (L.count j : ℚ) else 0 := by
    intro i _
    rw [N_ij_diagPairs]
    rcases eq_or_ne i j with rfl | h
    · simp
    · rw [if_neg h, if_neg (Ne.symm h)]
  rw [Finset.sum_congr rfl h1]
  rw [Finset.sum_ite_eq (Finset.range (maxList L + 1)) j
    (fun _ => (L.count j : ℚ)), if_pos hj]

theorem C_pairs_diagPairs (L : List ℕ) : C_pairs (diagPairs L) = 0 := by
  rw [C_pairs, maxGtLabel_diagPairs, maxTestLabel_diagPairs]
  have h1 : ∀ i ∈ Finset.range (maxList L + 1), ∀ j ∈ Finset.range (maxList L + 1),
      (N_row (diagPairs L) i - N_ij (diagPairs L) i j) * N_ij (diagPairs L) i j = 0 := by
    intro i hi j _
    rcases eq_or_ne i j with rfl | h
    · rw [N_ij_diagPairs, if_pos rfl, N_row_diagPairs L hi, sub_self, zero_mul]
    · rw [N_ij_diagPairs, if_neg h, mul_zero]
  rw [Finset.sum_congr rfl fun i hi => Finset.sum_eq_zero (h1 i hi),
    Finset.sum_const_zero, zero_div]

theorem D_pairs_diagPairs (L : List ℕ) : D_pairs (diagPairs L) = 0 := by
  rw [D_pairs, maxGtLabel_diagPairs, maxTestLabel_diagPairs]
  have h1 : ∀ i ∈ Finset.range (maxList L + 1), ∀ j ∈ Finset.range (maxList L + 1),
      (N_col (diagPairs L) j - N_ij (diagPairs L) i j) * N_ij (diagPairs L) i j = 0 := by
    intro i hi j hj
    rcases eq_or_ne i j with rfl | h
    · rw [N_ij_diagPairs, if_pos rfl, N_col_diagPairs L hi, sub_self, zero_mul]
    · rw [N_ij_diagPairs, if_neg h, mul_zero]
  rw [Finset.sum_congr rfl fun i hi => Finset.sum_eq_zero (h1 i hi),
    Finset.sum_const_zero, zero_div]

theorem sum_choose2_row_diagPairs (L : List ℕ) :
    ∑ i ∈ Finset.range (maxGtLabel (diagPairs L) + 1), choose2 (N_row (diagPairs L) i) =
      sumChoose2Classes L := by
  rw [maxGtLabel_diagPairs, sumChoose2Classes]
  exact Finset.sum_congr rfl fun i hi => by rw [N_row_diagPairs L hi]

theorem sum_choose2_col_diagPairs (L : List ℕ) :
    ∑ j ∈ Finset.range (maxTestLabel (diagPairs L) + 1), choose2 (N_col (diagPairs L) j) =
      sumChoose2Classes L := by
  rw [maxTestLabel_diagPairs, sumChoose2Classes]
  exact Finset.sum_congr rfl fun j hj => by rw [N_col_diagPairs L hj]

theorem totalPairs_diagPairs (L : List ℕ) :
    totalPairs (diagPairs L) = choose2 ((L.length : ℚ)) := by
  rw [totalPairs, diagPairs, List.length_map]

theorem false_positive_count_selfPixels (m : List Bool) :
    false_positive_count (selfPixels m) = 0 := by
  rw [false_positive_count_eq, fpSpec, selfPixels, List.filter_map]
  rw [List.length_map, List.length_eq_zero, List.filter_eq_nil_iff]
  intro v _ hv
  simp at hv

theorem false_negative_count_selfPixels (m : List Bool) :
    false_negative_count (selfPixels m) = 0 := by
  rw [false_negative_count_eq, fnSpec, selfPixels, List.filter_map]
  rw [List.length_map, List.length_eq_zero, List.filter_eq_nil_iff]
  intro v _ hv
  simp at hv

/-- **C9 counterexample.**  The concrete scenario: a 1×1 all-foreground grid
compared in pixel mode against an identical copy of itself under an all-true
validity mask.  Both masked foregrounds are identical, so `scipy.ndimage.label`
produces the same labeling for both — here the single valid pixel gets label 1
in each image, i.e. the label-pair sequence `[(1, 1)]`.  The claim demands
`rand_index = adjusted_rand_index = 1.0`, but `compute_rand_index` divides by
`total = choose2(1) = 0` and returns NaN for both (`(none, none)`), so the
claim is false at this input. -/
theorem c9_counterexample :
    compute_rand_index [((1 : ℕ), (1 : ℕ))] = (none, none) ∧
      compute_rand_index [((1 : ℕ), (1 : ℕ))] ≠ (some 1, some 1) := by
  have hg : maxGtLabel [((1 : ℕ), (1 : ℕ))] = 1 := by decide
  have ht : maxTestLabel [((1 : ℕ), (1 : ℕ))] = 1 := by decide
  have htot : totalPairs [((1 : ℕ), (1 : ℕ))] = 0 := by
    norm_num [totalPairs, choose2]
  have hr0 : N_row [((1 : ℕ), (1 : ℕ))] 0 = 0 := by
    rw [N_row, ht]
    norm_num [N_ij, Finset.sum_range_succ, Finset.sum_range_one,
      List.filter_cons, List.filter_nil]
  have hr1 : N_row [((1 : ℕ), (1 : ℕ))] 1 = 1 := by
    rw [N_row, ht]
    norm_num [N_ij, Finset.sum_range_succ, Finset.sum_range_one,
      List.filter_cons, List.filter_nil]
  have hc0 : N_col [((1 : ℕ), (1 : ℕ))] 0 = 0 := by
    rw [N_col, hg]
    norm_num [N_ij, Finset.sum_range_succ, Finset.sum_range_one,
      List.filter_cons, List.filter_nil]
  have hc1 : N_col [((1 : ℕ), (1 : ℕ))] 1 = 1 := by
    rw [N_col, hg]
    norm_num [N_ij, Finset.sum_range_succ, Finset.sum_range_one,
      List.filter_cons, List.filter_nil]
  have hexp : expected_index [((1 : ℕ), (1 : ℕ))] = 0 := by
    rw [expected_index, hg, ht, Finset.sum_range_succ, Finset.sum_range_one,
      Finset.sum_range_succ, Finset.sum_range_one, hr0, hr1, hc0, hc1]
    norm_num [choose2]
  have hmax : max_index [((1 : ℕ), (1 : ℕ))] = 0 := by
    rw [max_index, htot]; ring
  have h1 : compute_rand_index [((1 : ℕ), (1 : ℕ))] = (none, none) := by
    rw [compute_rand_index, if_pos (by norm_num), htot, hmax, hexp, qdiv, qdiv]
    norm_num
  refine ⟨h1, ?_⟩
  rw [h1]
  intro hc
  simp at hc

/-- **C9 (amended).**  For a binary mask compared in pixel mode against an
identical copy of itself under an all-true validity mask, the code always
yields `precision = recall = f_factor = 1.0` and
`false_positive_rate = false_negative_rate = 0.0`.  For the Rand indices —
computed by `compute_rand_index` on the two (identical) connected-component
label sequences `L` — with at least two valid pixels `rand_index` is always
`1.0`, and `adjusted_rand_index` is `1.0` provided some label class has at
least two pixels (`sumChoose2Classes L ≠ 0`) and not all pixels share one
label (`sumChoose2Classes L ≠ choose2 n`); when the labeling is degenerate
(all classes singletons, or one class covering every valid pixel, as for an
all-background or all-foreground mask) the code returns
`rand_index = 1.0` but NaN for the adjusted index.  With fewer than two
valid pixels (the single-pixel counterexample) both indices are NaN. -/
theorem c9_identical_masks_amended (m : List Bool) (L : List ℕ)
    (h2 : 2 ≤ L.length) :
    mi_precision (selfPixels m) = 1 ∧
    mi_recall (selfPixels m) = 1 ∧
    mi_f_factor (selfPixels m) = 1 ∧
    mi_false_positive_rate (selfPixels m) = 0 ∧
    mi_false_negative_rate (selfPixels m) = 0 ∧
    (compute_rand_index (diagPairs L)).1 = some 1 ∧
    (sumChoose2Classes L ≠ 0 →
      sumChoose2Classes L ≠ choose2 ((L.length : ℚ)) →
      compute_rand_index (diagPairs L) = (some 1, some 1)) ∧
    ((sumChoose2Classes L = 0 ∨
      sumChoose2Classes L = choose2 ((L.length : ℚ))) →
      compute_rand_index (diagPairs L) = (some 1, none)) := by
  have hfp := false_positive_count_selfPixels m
  have hfn := false_negative_count_selfPixels m
  have hprec : mi_precision (selfPixels m) = 1 := by
    rw [mi_precision, hfp, Nat.add_zero]
    rcases Nat.eq_zero_or_pos (true_positive_count (selfPixels m)) with h | h
    · rw [if_pos h]
    · rw [if_neg (by omega),
        div_self (by exact_mod_cast (by omega : true_positive_count (selfPixels m) ≠ 0))]
  have hrec : mi_recall (selfPixels m) = 1 := by
    rw [mi_recall, hfn, Nat.add_zero]
    rcases Nat.eq_zero_or_pos (true_positive_count (selfPixels m)) with h | h
    · rw [if_pos h]
    · rw [if_neg (by omega),
        div_self (by exact_mod_cast (by omega : true_positive_count (selfPixels m) ≠ 0))]
  have hf : mi_f_factor (selfPixels m) = 1 := by
    rw [mi_f_factor, hprec, hrec]
    norm_num
  have hfpr : mi_false_positive_rate (selfPixels m) = 0 := by
    rw [mi_false_positive_rate, hfp]
    split <;> simp
  have hfnr : mi_false_negative_rate (selfPixels m) = 0 := by
    rw [mi_false_negative_rate, hfn]
    split <;> simp
  have hlen : 0 < (diagPairs L).length := by
    rw [diagPairs, List.length_map]; omega
  have hn2 : (2 : ℚ) ≤ (L.length : ℚ) := by exact_mod_cast h2
  have hT : choose2 ((L.length : ℚ)) ≠ 0 := by
    have hpos : 0 < choose2 ((L.length : ℚ)) := by
      rw [choose2]; nlinarith
    exact ne_of_gt hpos
  have hexp : expected_index (diagPairs L) =
      sumChoose2Classes L * sumChoose2Classes L := by
    rw [expected_index, sum_choose2_row_diagPairs, sum_choose2_col_diagPairs]
  have hmax : max_index (diagPairs L) =
      sumChoose2Classes L * choose2 ((L.length : ℚ)) := by
    rw [max_index, sum_choose2_row_diagPairs, sum_choose2_col_diagPairs,
      totalPairs_diagPairs]
    ring
  have harg : sumChoose2Classes L +
      (choose2 ((L.length : ℚ)) - sumChoose2Classes L - 0 - 0) =
      choose2 ((L.length : ℚ)) := by ring
  have hform : compute_rand_index (diagPairs L) =
      (qdiv (choose2 ((L.length : ℚ))) (choose2 ((L.length : ℚ))),
       qdiv (sumChoose2Classes L * choose2 ((L.length : ℚ)) -
           sumChoose2Classes L * sumChoose2Classes L)
         (sumChoose2Classes L * choose2 ((L.length : ℚ)) -
           sumChoose2Classes L * sumChoose2Classes L)) := by
    rw [compute_rand_index, if_pos hlen, B_pairs, A_pairs_diagPairs,
      C_pairs_diagPairs, D_pairs_diagPairs, totalPairs_diagPairs, hexp, hmax,
      harg]
  have hrand : qdiv (choose2 ((L.length : ℚ))) (choose2 ((L.length : ℚ))) =
      some 1 := by
    rw [qdiv, if_neg hT, div_self hT]
  refine ⟨hprec, hrec, hf, hfpr, hfnr, ?_, ?_, ?_⟩
  · rw [hform]
    exact hrand
  · intro hS0 hStot
    have hden : sumChoose2Classes L * choose2 ((L.length : ℚ)) -
        sumChoose2Classes L * sumChoose2Classes L ≠ 0 := by
      have hfac : sumChoose2Classes L * choose2 ((L.length : ℚ)) -
          sumChoose2Classes L * sumChoose2Classes L =
          sumChoose2Classes L *
            (choose2 ((L.length : ℚ)) - sumChoose2Classes L) := by
        ring
      rw [hfac]
      exact mul_ne_zero hS0 (sub_ne_zero.2 (Ne.symm hStot))
    rw [hform, hrand, qdiv, if_neg hden, div_self hden]
  · intro hdeg
    have hD : sumChoose2Classes L * choose2 ((L.length : ℚ)) -
        sumChoose2Classes L * sumChoose2Classes L = 0 := by
      rcases hdeg with h | h
      · rw [h]; ring
      · rw [h]; ring
    rw [hform, hrand, hD, qdiv, if_pos rfl]

/-- **C9 witness** for the amended theorem: the labeling `[0,0,1,1]` (two
classes of two pixels each) gives both Rand indices `1`; the one-class
labeling `[0,0]` (an all-background two-pixel mask) gives `rand_index = 1`
with a NaN adjusted index. -/
theorem c9_identical_masks_amended_witness :
    compute_rand_index (diagPairs [0, 0, 1, 1]) = (some 1, some 1) ∧
      compute_rand_index (diagPairs [0, 0]) = (some 1, none) :=
  ⟨(c9_identical_masks_amended [true] [0, 0, 1, 1]
      (by norm_num)).2.2.2.2.2.2.1
      (by norm_num [sumChoose2Classes, maxList, Finset.sum_range_succ, choose2])
      (by norm_num [sumChoose2Classes, maxList, Finset.sum_range_succ, choose2]),
   (c9_identical_masks_amended [true] [0, 0]
      (by norm_num)).2.2.2.2.2.2.2
      (Or.inr (by norm_num [sumChoose2Classes, maxList, Finset.sum_range_succ,
        choose2]))⟩

/-!
## Object mode: `measure_objects` (source lines 273-398)

A sparse object labeling is a list of ijv triples `(i, j, label)`.  The source
computes `ID_obj = max(lID)`, `GT_obj = max(lGT)` and an overlap matrix
`intersect_matrix = np.zeros((ID_obj, GT_obj))` filled by
`intersect_matrix[jj, ii] = len(GT_set_ii & ID_set_jj)` for
`ii in range(0, GT_obj)` and `jj in range(0, ID_obj)` — so its rows are
indexed by TEST labels `0 .. max(lID)-1` and its columns by ground-truth
labels `0 .. max(lGT)-1` (the object carrying the maximal label of either
listing is never visited, and index 0 — not an object label — contributes an
all-zero row/column).
-/

/-- An ijv triple `(i, j, label)` of a sparse object labeling. -/
abbrev Triple := ℕ × ℕ × ℕ

/-- `set(zip(i, j))` of the pixels carrying label `lab` in an ijv listing. -/
def labelCoords (ijv : List Triple) (lab : ℕ) : Finset (ℕ × ℕ) :=
  ((ijv.filter (fun t => t.2.2 == lab)).map (fun t => (t.1, t.2.1))).toFinset

/-- `max(l)` over the labels of a listing (`ID_obj` / `GT_obj`). -/
def maxLabel (ijv : List Triple) : ℕ := maxList (ijv.map (fun t => t.2.2))

/-- `intersect_matrix[jj, ii] = len(GT_set_ii & ID_set_jj)`: row `jj` is a
test label, column `ii` a ground-truth label. -/
def intersect_matrix (gt id : List Triple) (jj ii : ℕ) : ℕ :=
  (labelCoords gt ii ∩ labelCoords id jj).card

/-- `FN_area[jj, ii] = len(GT_set_ii) - area_overlap` (filled in the first
double loop, before collision resolution). -/
def FN_area (gt id : List Triple) (jj ii : ℕ) : ℕ :=
  (labelCoords gt ii).card - intersect_matrix gt id jj ii

/-- Row `jj` of `intersect_matrix`: the overlaps of test object `jj` with
ground-truth objects `0 .. GT_obj - 1`. -/
def matrixRow (gt id : List Triple) (jj : ℕ) : List ℕ :=
  (List.range (maxLabel gt)).map (intersect_matrix gt id jj)

/-- `dom_ID` (source lines 330-337): iterating over the ROWS of
`intersect_matrix` — i.e. over test labels `0 ≤ i < max(lID)` — record `-1`
when the row is all zero, else `np.where(i == max(i))[0][0]`, the first
column index attaining the row maximum (a ground-truth label). -/
def dom_ID (gt id : List Triple) : List ℤ :=
  (List.range (maxLabel id)).map fun r =>
    if maxList (matrixRow gt id r) = 0 then -1
    else (List.indexOf (maxList (matrixRow gt id r)) (matrixRow gt id r) : ℤ)

/-- `np.where(dom_ID == i)[0]` for column `i`: the rows dominantly mapping to
ground-truth column `col`. -/
def collidersOf (gt id : List Triple) (col : ℕ) : List ℕ :=
  (List.range (maxLabel id)).filter fun r =>
    decide ((dom_ID gt id).getD r (-1) = (col : ℤ))

/-- Column `col` of the (current) matrix `M`, as read by
`intersect_matrix.T[i]`. -/
def colValsOf (id : List Triple) (M : ℕ → ℕ → ℕ) (col : ℕ) : List ℕ :=
  (List.range (maxLabel id)).map fun r => M r col

/-- One iteration of the collision-resolution loop (source lines 339-348) for
ground-truth column `col`: when more than one row dominantly maps to `col`,
every colliding row other than `final_id` — the first row attaining the
maximum of the WHOLE current column, colliding or not — gets its `col` entry
zeroed. -/
def resolveCol (gt id : List Triple) (M : ℕ → ℕ → ℕ) (col : ℕ) : ℕ → ℕ → ℕ :=
  if 1 < (collidersOf gt id col).length then
    fun r c =>
      if c = col ∧ (dom_ID gt id).getD r (-1) = (col : ℤ) ∧
          r ≠ List.indexOf (maxList (colValsOf id M col)) (colValsOf id M col) then 0
      else M r c
  else M

/-- The intersect matrix after the whole collision-resolution loop
`for i in range(0, len(intersect_matrix.T))`. -/
def resolvedMatrix (gt id : List Triple) : ℕ → ℕ → ℕ :=
  (List.range (maxLabel gt)).foldl (resolveCol gt id) (intersect_matrix gt id)

/-- `final_id` of column `col` computed from the ORIGINAL matrix (the loop
iterations are column-independent, proved below). -/
def finalIdOf (gt id : List Triple) (col : ℕ) : ℕ :=
  List.indexOf (maxList (colValsOf id (intersect_matrix gt id) col))
    (colValsOf id (intersect_matrix gt id) col)

theorem resolveCol_other (gt id : List Triple) (M : ℕ → ℕ → ℕ) (col r c : ℕ)
    (h : c ≠ col) : resolveCol gt id M col r c = M r c := by
  rw [resolveCol]
  split
  · dsimp only
    rw [if_neg (fun hc => h hc.1)]
  · rfl

theorem foldl_resolve_untouched (gt id : List Triple) (cols : List ℕ)
    (M : ℕ → ℕ → ℕ) (c : ℕ) (h : c ∉ cols) (r : ℕ) :
    (cols.foldl (resolveCol gt id) M) r c = M r c := by
  induction cols generalizing M with
  | nil => rfl
  | cons a t ih =>
    rw [List.foldl_cons, ih _ (fun hc => h (List.mem_cons_of_mem _ hc))]
    exact resolveCol_other gt id M a r c fun hc => h (hc ▸ List.mem_cons_self a t)

theorem resolveCol_congr_col (gt id : List Triple) (M₁ M₂ : ℕ → ℕ → ℕ)
    (col : ℕ) (hcol : ∀ r, M₁ r col = M₂ r col) (r : ℕ) :
    resolveCol gt id M₁ col r col = resolveCol gt id M₂ col r col := by
  have hv : colValsOf id M₁ col = colValsOf id M₂ col := by
    rw [colValsOf, colValsOf]
    exact List.map_congr_left fun x _ => hcol x
  rw [resolveCol, resolveCol, hv]
  split
  · dsimp only
    split
    · rfl
    · exact hcol r
  · exact hcol r

theorem foldl_resolve_at_mem (gt id : List Triple) (cols : List ℕ)
    (M : ℕ → ℕ → ℕ) (hnd : cols.Nodup) (col : ℕ) (h : col ∈ cols) (r : ℕ) :
    (cols.foldl (resolveCol gt id) M) r col = resolveCol gt id M col r col := by
  induction cols generalizing M with
  | nil => cases h
  | cons a t ih =>
    rw [List.foldl_cons]
    rcases List.mem_cons.1 h with rfl | hmem
    · exact foldl_resolve_untouched gt id t _ col (List.nodup_cons.1 hnd).1 r
    · rw [ih _ (List.nodup_cons.1 hnd).2 hmem]
      have hane : a ≠ col := fun he => (List.nodup_cons.1 hnd).1 (he ▸ hmem)
      exact resolveCol_congr_col gt id _ M col
        (fun r' => resolveCol_other gt id M a r' col (Ne.symm hane)) r

/-!
The `TP`/`TN`/`FN`/`FP` aggregation (source lines 350-385).  Note the
faithfully reproduced quirks: the loop body appends `tp` to the `TP` list
TWICE; `d = dom_ID[i] = -1` is used directly as a Python index, selecting the
LAST column `GT_obj - 1` (and the slice pair `row[0:-1]`, `row[0:]` in the
`FP` loop); `FN_area` is read from the pre-resolution matrix while `tp` and
`fp` read the post-resolution one.
-/

/-- Python `row[d]` for `d = dom_ID[i]`: `-1` means the last column. -/
def domCol (gt : List Triple) (d : ℤ) : ℕ :=
  if d = -1 then maxLabel gt - 1 else d.toNat

/-- `tp = intersect_matrix[i][d]` (post-resolution matrix). -/
def tpOf (gt id : List Triple) (i : ℕ) : ℕ :=
  resolvedMatrix gt id i (domCol gt ((dom_ID gt id).getD i (-1)))

/-- `fn = FN_area[i][d]` (pre-resolution areas). -/
def fnOf (gt id : List Triple) (i : ℕ) : ℕ :=
  FN_area gt id i (domCol gt ((dom_ID gt id).getD i (-1)))

/-- `TP = np.sum(TP)` where the loop appended each `tp` twice
(`TP += [tp]` occurs at source lines 356 and 360). -/
def TP_total (gt id : List Triple) : ℕ :=
  ((List.range (maxLabel id)).flatMap fun i => [tpOf gt id i, tpOf gt id i]).sum

/-- `FN = np.sum(FN)`. -/
def FN_total (gt id : List Triple) : ℕ :=
  ((List.range (maxLabel id)).map fun i => fnOf gt id i).sum

/-- `TN = np.sum(TN)` with `tn = total_pixels - tp` per row (float). -/
def TN_total (gt id : List Triple) (totalPixels : ℕ) : ℚ :=
  ((List.range (maxLabel id)).map fun i =>
    (totalPixels : ℚ) - (tpOf gt id i : ℚ)).sum

/-- `fp = np.sum(intersect_matrix[i][0:d]) + np.sum(intersect_matrix[i][(d+1)::])`
on the post-resolution matrix; for `d = -1` the Python slices are `row[0:-1]`
(all but the last entry) and `row[0:]` (the whole row). -/
def fpOf (gt id : List Triple) (i : ℕ) : ℕ :=
  let d := (dom_ID gt id).getD i (-1)
  let row := (List.range (maxLabel gt)).map (resolvedMatrix gt id i)
  if d = -1 then (row.take (maxLabel gt - 1)).sum + row.sum
  else (row.take d.toNat).sum + (row.drop (d.toNat + 1)).sum

/-- `FP = np.sum(FP)`. -/
def FP_total (gt id : List Triple) : ℕ :=
  ((List.range (maxLabel id)).map fun i => fpOf gt id i).sum

/-- `GT_tot_area = np.sum([len(GT_set_ii) for ii in range(0, GT_obj)])`. -/
def GT_tot_area (gt : List Triple) : ℕ :=
  ((List.range (maxLabel gt)).map fun ii => (labelCoords gt ii).card).sum

/-- `recall = TP / GT_tot_area`. -/
def mo_recall (gt id : List Triple) : ℚ :=
  (TP_total gt id : ℚ) / (GT_tot_area gt : ℚ)

/-- `precision = TP / (TP + FP)`. -/
def mo_precision (gt id : List Triple) : ℚ :=
  (TP_total gt id : ℚ) / ((TP_total gt id : ℚ) + (FP_total gt id : ℚ))

/-- **C2 (code bug).**  Ground truth and test both consist of the single
object labeled 1 occupying the single pixel `(0,0)` — a perfect match.  The
claim (and the source's own comments: "for ea GT object, which is the
dominating ID?") say every ground-truth object is assigned its
maximum-overlap test object, here `1 ↦ 1`.  But `measure_objects` iterates
labels `range(0, max(label))`, so only the phantom index 0 is ever examined
(the single real object, which carries the maximal label, is dropped), and
the matrix rows are test objects rather than ground-truth objects.  The code
yields `dom_ID = [-1]`: the sole considered index is reported unmatched even
though the true objects overlap perfectly (second conjunct: their overlap is
1 pixel). -/
theorem c2_matcher_failing_input :
    dom_ID [(0, 0, 1)] [(0, 0, 1)] = [-1] ∧
      (labelCoords [(0, 0, 1)] 1 ∩ labelCoords [(0, 0, 1)] 1).card = 1 := by
  constructor
  · decide
  · decide

/-- Ground-truth listing of the collision counterexample: object 1 has 11
pixels in three groups (5 shared with test 1, 3 with test 2, 3 with test 3),
object 2 has 6 pixels (all shared with test 1), object 3 is a far-away dummy
pixel raising `max(lGT)` to 3 so that columns 1 and 2 exist. -/
def gtC3 : List Triple :=
  [(0, 0, 1), (0, 1, 1), (0, 2, 1), (0, 3, 1), (0, 4, 1),
   (1, 0, 1), (1, 1, 1), (1, 2, 1),
   (2, 0, 1), (2, 1, 1), (2, 2, 1),
   (3, 0, 2), (3, 1, 2), (3, 2, 2), (3, 3, 2), (3, 4, 2), (3, 5, 2),
   (9, 9, 3)]

/-- Test listing of the collision counterexample: object 1 overlaps
ground-truth 1 by 5 and ground-truth 2 by 6 (so it dominantly maps to
column 2), objects 2 and 3 each overlap ground-truth 1 by 3 (both dominantly
map to column 1 — a collision), object 4 is a dummy raising `max(lID)`
to 4. -/
def idC3 : List Triple :=
  [(0, 0, 1), (0, 1, 1), (0, 2, 1), (0, 3, 1), (0, 4, 1),
   (3, 0, 1), (3, 1, 1), (3, 2, 1), (3, 3, 1), (3, 4, 1), (3, 5, 1),
   (1, 0, 2), (1, 1, 2), (1, 2, 2),
   (2, 0, 3), (2, 1, 3), (2, 2, 3),
   (9, 8, 4)]

/-- **C3 counterexample.**  On `gtC3`/`idC3` the rows colliding on column 1
are exactly 2 and 3 (`dom_ID = [-1, 2, 1, 1]`), with equal overlaps
`3`; the colliding object with the largest overlap and lowest index is row 2.
The claim says exactly that collider keeps its match with column 1.  The code
instead takes `final_id` as the argmax over the WHOLE column — row 1, overlap
5, which is not a collider (it dominantly maps to column 2) — and therefore
zeroes BOTH colliding rows: after resolution rows 2 and 3 hold 0 in column 1,
so no collider keeps the match, refuting the claim at this input. -/
theorem c3_counterexample :
    dom_ID gtC3 idC3 = [-1, 2, 1, 1] ∧
    intersect_matrix gtC3 idC3 1 1 = 5 ∧
    intersect_matrix gtC3 idC3 2 1 = 3 ∧
    intersect_matrix gtC3 idC3 3 1 = 3 ∧
    collidersOf gtC3 idC3 1 = [2, 3] ∧
    resolvedMatrix gtC3 idC3 2 1 = 0 ∧
    resolvedMatrix gtC3 idC3 3 1 = 0 := by
  refine ⟨by decide, by decide, by decide, by decide, by decide, by decide, by decide⟩

/-- **C3 (amended).**  Whenever two or more rows (test objects) dominantly
map to the same ground-truth column `col`, the collision pass leaves the
column as follows: every colliding row other than `final_id` — the FIRST row
attaining the maximum of the whole column, whether or not it collides — has
its `col` entry zeroed, and every other entry of the column (in particular
`final_id` itself, and rows that do not collide) keeps its original overlap.
`dom_ID` is not recomputed, so demoted rows are not rematched to their
second-best test object; when the column-wide argmax is not itself a
collider, every colliding row is demoted. -/
theorem c3_collision_resolution_amended (gt id : List Triple) (col : ℕ)
    (hcol : col < maxLabel gt)
    (hc : 1 < (collidersOf gt id col).length) :
    ∀ r, resolvedMatrix gt id r col =
      if (dom_ID gt id).getD r (-1) = (col : ℤ) ∧ r ≠ finalIdOf gt id col then 0
      else intersect_matrix gt id r col := by
  intro r
  rw [resolvedMatrix,
    foldl_resolve_at_mem gt id _ _ (List.nodup_range _) col (List.mem_range.2 hcol) r,
    resolveCol, if_pos hc]
  rw [finalIdOf]
  rcases Classical.em
      ((dom_ID gt id).getD r (-1) = (col : ℤ) ∧
        r ≠ List.indexOf (maxList (colValsOf id (intersect_matrix gt id) col))
          (colValsOf id (intersect_matrix gt id) col)) with h | h
  · rw [if_pos ⟨rfl, h.1, h.2⟩, if_pos h]
  · rw [if_neg (fun hc2 => h ⟨hc2.2.1, hc2.2.2⟩), if_neg h]

/-- **C3 witness** for the amended theorem, instantiated at the
counterexample input, column 1, row 2: the lowest-index maximal collider is
demoted to 0 because `final_id = 1` is outside the colliding set. -/
theorem c3_collision_resolution_amended_witness :
    (1 < maxLabel gtC3 ∧ 1 < (collidersOf gtC3 idC3 1).length) ∧
      resolvedMatrix gtC3 idC3 2 1 =
        (if (dom_ID gtC3 idC3).getD 2 (-1) = ((1 : ℕ) : ℤ) ∧
            2 ≠ finalIdOf gtC3 idC3 1 then 0
         else intersect_matrix gtC3 idC3 2 1) :=
  ⟨⟨by decide, by decide⟩,
   c3_collision_resolution_amended gtC3 idC3 1 (by decide) (by decide) 2⟩

/-- Ground truth of the C4 failing input: object 1 = pixels
`(0,0), (0,1)`; dummy object 2 raises `max(lGT)` to 2. -/
def gtC4 : List Triple := [(0, 0, 1), (0, 1, 1), (9, 9, 2)]

/-- Test objects of the C4 failing input: object 1 = the same two pixels
(a perfect match of ground-truth object 1); dummy object 2. -/
def idC4 : List Triple := [(0, 0, 1), (0, 1, 1), (9, 8, 2)]

/-- **C4 (code bug).**  On `gtC4`/`idC4` the only real matched pair is
ground-truth object 1 with test object 1, overlapping on 2 pixels, so the
claim's formulas give `TP = 2`, `FN = 0` and
`recall = TP / GT_total_area = 2/2 = 1`.  The code instead appends each `tp`
to the `TP` list twice (`TP += [tp]` twice per loop iteration), and for the
unmatched row 0 reads `FN_area[0][-1]` — Python-indexing the LAST column —
adding a spurious `fn = 2`.  It reports `TP = 4`, `FN = 2`, and
`recall = 4/2 = 2.0`, an impossible value for a recall. -/
theorem c4_aggregation_failing_input :
    TP_total gtC4 idC4 = 4 ∧ FN_total gtC4 idC4 = 2 ∧ GT_tot_area gtC4 = 2 ∧
      mo_recall gtC4 idC4 = 2 := by
  refine ⟨by decide, by decide, by decide, ?_⟩
  rw [mo_recall, (by decide : TP_total gtC4 idC4 = 4),
    (by decide : GT_tot_area gtC4 = 2)]
  norm_num

/-!
## `compute_rand_index_ijv` (source lines 550-690)

The sparse Omega-index pipeline.  Its stages, mirrored one-to-one:

1. background augmentation: every valid coordinate not covered by a listing
   gets an explicit label-0 triple in that listing (`gt_bkgd` / `test_bkgd`);
2. a unified structure `u` of rows `(i, j, label, source)` with source tag
   `0` for ground truth and `1` for test;
3. `np.lexsort([u[:,2], u[:,3], u[:,0], u[:,1]])`: sort by `(j, i, source,
   label)` (last lexsort key is primary);
4. removal of rows equal to their predecessor (exact duplicate labelings);
5. grouping by coordinate;
6. per `(count_test, count_gt)` bucket: collect the per-coordinate label
   rows, lexsort them by their reversed column order, group equal rows, and
   emit one class `(count, row[:j], row[j:])` per distinct row — the split
   fields are named `tnums`/`gnums` after the source's `tobject_numbers` /
   `gobject_numbers` (because ground-truth rows sort before test rows, the
   first block actually holds the GROUND-TRUTH labels — the source swaps the
   names; the final formulas are transpose-invariant, so the returned values
   are unaffected);
7. the pair loop filling `tbl`, and the Rand / adjusted-Rand formulas.
-/

/-- A coordinate of the validity mask. -/
abbrev MCoord := ℕ × ℕ

/-- A row of the unified array `u`: `(i, j, label, source)`. -/
@[ext]
structure URow where
  pi : ℕ
  pj : ℕ
  lab : ℕ
  src : ℕ
deriving DecidableEq

/-- The lexsort order on `u`-rows: by `(j, i, source, label)`. -/
def rowLe (a b : URow) : Prop :=
  a.pj < b.pj ∨ a.pj = b.pj ∧ (a.pi < b.pi ∨ a.pi = b.pi ∧
    (a.src < b.src ∨ a.src = b.src ∧ a.lab ≤ b.lab))

/-- The corresponding strict order. -/
def rowLt (a b : URow) : Prop :=
  a.pj < b.pj ∨ a.pj = b.pj ∧ (a.pi < b.pi ∨ a.pi = b.pi ∧
    (a.src < b.src ∨ a.src = b.src ∧ a.lab < b.lab))

instance : DecidableRel rowLe := fun a b => by
  unfold rowLe
  infer_instance

instance : DecidableRel rowLt := fun a b => by
  unfold rowLt
  infer_instance

instance : IsTotal URow rowLe := ⟨by
  intro a b
  unfold rowLe
  omega⟩

instance : IsTrans URow rowLe := ⟨by
  intro a b c hab hbc
  unfold rowLe at *
  omega⟩

instance : IsAntisymm URow rowLe := ⟨by
  intro a b hab hba
  obtain ⟨a1, a2, a3, a4⟩ := a
  obtain ⟨b1, b2, b3, b4⟩ := b
  unfold rowLe at hab hba
  simp only [URow.mk.injEq]
  simp only at hab hba
  omega⟩

instance : IsTrans URow rowLt := ⟨by
  intro a b c hab hbc
  unfold rowLt at *
  omega⟩

instance : IsAntisymm URow rowLt := ⟨by
  intro a b hab hba
  unfold rowLt at hab hba
  omega⟩

theorem rowLt_of_rowLe_ne {a b : URow} (h : rowLe a b) (hne : a ≠ b) :
    rowLt a b := by
  obtain ⟨a1, a2, a3, a4⟩ := a
  obtain ⟨b1, b2, b3, b4⟩ := b
  unfold rowLe at h
  unfold rowLt
  simp only [ne_eq, URow.mk.injEq, not_and] at hne
  simp only at h ⊢
  by_cases h1 : a1 = b1 <;> by_cases h2 : a2 = b2 <;> by_cases h3 : a3 = b3 <;>
    by_cases h4 : a4 = b4 <;> (simp_all; try omega)

theorem ne_of_rowLt {a b : URow} (h : rowLt a b) : a ≠ b := by
  intro he
  subst he
  unfold rowLt at h
  omega

/-- `mask minus the coordinates present in an ijv listing`: the coordinates
where a background triple is synthesized (`gt_bkgd` / `test_bkgd`). -/
def bkgdCoords (ijv : List Triple) (mask : List MCoord) : List MCoord :=
  mask.filter fun c => !(ijv.any fun t => t.1 == c.1 && t.2.1 == c.2)

/-- `np.vstack([ijv, background rows with label 0])`. -/
def withBkgd (ijv : List Triple) (mask : List MCoord) : List Triple :=
  ijv ++ (bkgdCoords ijv mask).map fun c => (c.1, c.2, 0)

/-- Tag a listing with a source column. -/
def mkURows (ijv : List Triple) (s : ℕ) : List URow :=
  ijv.map fun t => ⟨t.1, t.2.1, t.2.2, s⟩

/-- The unified structure `u` (before sorting). -/
def uRows (gt test : List Triple) (mask : List MCoord) : List URow :=
  mkURows (withBkgd gt mask) 0 ++ mkURows (withBkgd test mask) 1

/-- Stages 3 and 4: lexsort, then drop rows equal to their predecessor. -/
def pipeD (u : List URow) : List URow :=
  (List.insertionSort rowLe u).destutter (· ≠ ·)

/-!
### Grouping consecutive rows

`chunks beq l` splits `l` into maximal runs of adjacent elements related by
`beq`; it models the `first_coord_idxs` / `np.argwhere(adjacent differ)`
construction of the source (and the analogous `lm_first` grouping inside the
buckets).
-/

/-- Split a list into maximal runs of adjacent `beq`-related elements. -/
def chunks {α : Type} (beq : α → α → Bool) : List α → List (List α)
  | [] => []
  | [a] => [[a]]
  | a :: b :: l =>
    match chunks beq (b :: l) with
    | [] => [[a]]
    | g :: gs => if beq a b then (a :: g) :: gs else [a] :: g :: gs

theorem chunks_cons_cons {α : Type} (beq : α → α → Bool) (a b : α) (l : List α) :
    chunks beq (a :: b :: l) =
      match chunks beq (b :: l) with
      | [] => [[a]]
      | g :: gs => if beq a b then (a :: g) :: gs else [a] :: g :: gs := rfl

theorem chunks_head {α : Type} (beq : α → α → Bool) :
    ∀ (l : List α) (a : α), ∃ g gs, chunks beq (a :: l) = (a :: g) :: gs := by
  intro l
  induction l with
  | nil => exact fun a => ⟨[], [], rfl⟩
  | cons b l' ih =>
    intro a
    obtain ⟨g, gs, hg⟩ := ih b
    rw [chunks_cons_cons, hg]
    dsimp only
    by_cases hb : beq a b
    · exact ⟨b :: g, gs, by rw [if_pos hb]⟩
    · exact ⟨[], (b :: g) :: gs, by rw [if_neg hb]⟩

theorem chunks_flatten {α : Type} (beq : α → α → Bool) :
    ∀ l : List α, (chunks beq l).flatten = l := by
  intro l
  induction l with
  | nil => rfl
  | cons a t ih =>
    cases t with
    | nil => rfl
    | cons b l' =>
      obtain ⟨g, gs, hg⟩ := chunks_head beq l' b
      rw [chunks_cons_cons, hg]
      rw [hg] at ih
      simp only [List.flatten_cons, List.cons_append] at ih
      injection ih with _ h2
      dsimp only
      split
      · simp only [List.flatten_cons, List.cons_append, h2]
      · simp only [List.flatten_cons, List.cons_append, List.nil_append, h2]

theorem chunks_mem_of_mem_chunk {α : Type} {beq : α → α → Bool} {l : List α}
    {g : List α} (hg : g ∈ chunks beq l) {x : α} (hx : x ∈ g) : x ∈ l := by
  rw [← chunks_flatten beq l]
  exact List.mem_flatten.2 ⟨g, hg, hx⟩

theorem chunks_ne_nil {α : Type} {beq : α → α → Bool} :
    ∀ {l : List α} {g : List α}, g ∈ chunks beq l → g ≠ [] := by
  intro l
  induction l with
  | nil => intro g hg; cases hg
  | cons a t ih =>
    cases t with
    | nil =>
      intro g hg
      rcases List.mem_singleton.1 hg with rfl
      exact List.cons_ne_nil _ _
    | cons b l' =>
      intro g hg
      obtain ⟨g0, gs, hsplit⟩ := chunks_head beq l' b
      rw [chunks_cons_cons, hsplit] at hg
      dsimp only at hg
      split at hg
      · rcases List.mem_cons.1 hg with rfl | hmem
        · exact List.cons_ne_nil _ _
        · exact ih (by rw [hsplit]; exact List.mem_cons_of_mem _ hmem)
      · rcases List.mem_cons.1 hg with rfl | hmem
        · exact List.cons_ne_nil _ _
        · exact ih (by rw [hsplit]; exact hmem)

theorem chunks_chain {α : Type} {beq : α → α → Bool} :
    ∀ {l : List α} {g : List α}, g ∈ chunks beq l →
      g.Chain' fun x y => beq x y = true := by
  intro l
  induction l with
  | nil => intro g hg; cases hg
  | cons a t ih =>
    cases t with
    | nil =>
      intro g hg
      rcases List.mem_singleton.1 hg with rfl
      exact List.chain'_singleton a
    | cons b l' =>
      intro g hg
      obtain ⟨g0, gs, hsplit⟩ := chunks_head beq l' b
      rw [chunks_cons_cons, hsplit] at hg
      dsimp only at hg
      split at hg
      · next hbeq =>
        rcases List.mem_cons.1 hg with rfl | hmem
        · have hchain : (b :: g0).Chain' fun x y => beq x y = true :=
            ih (by rw [hsplit]; exact List.mem_cons_self _ _)
          exact List.chain'_cons.2 ⟨hbeq, hchain⟩
        · exact ih (by rw [hsplit]; exact List.mem_cons_of_mem _ hmem)
      · rcases List.mem_cons.1 hg with rfl | hmem
        · exact List.chain'_singleton a
        · exact ih (by rw [hsplit]; exact hmem)

/-- Cross-chunk unrelatedness: on a `le`-sorted list, with `beq` symmetric,
transitive, and convex with respect to `le`, elements of distinct chunks are
never `beq`-related. -/
theorem chunks_pairwise_not {α : Type} {beq : α → α → Bool} {le : α → α → Prop}
    (hsymm : ∀ x y, beq x y = true → beq y x = true)
    (htrans : ∀ x y z, beq x y = true → beq y z = true → beq x z = true)
    (hconv : ∀ x y z, le x y → le y z → beq x z = true → beq x y = true) :
    ∀ {l : List α}, l.Pairwise le →
      (chunks beq l).Pairwise fun g g' => ∀ x ∈ g, ∀ y ∈ g', beq x y = false := by
  intro l
  induction l with
  | nil => intro _; exact List.Pairwise.nil
  | cons a t ih =>
    cases t with
    | nil =>
      intro _
      exact List.pairwise_singleton _ _
    | cons b l' =>
      intro hsorted
      have htail : (b :: l').Pairwise le := hsorted.of_cons
      have hab : le a b := (List.pairwise_cons.1 hsorted).1 b (List.mem_cons_self _ _)
      obtain ⟨g0, gs, hsplit⟩ := chunks_head beq l' b
      have ihp := ih htail
      rw [hsplit] at ihp
      rw [chunks_cons_cons, hsplit]
      dsimp only
      split
      · next hbeq =>
        refine List.pairwise_cons.2 ⟨?_, (List.pairwise_cons.1 ihp).2⟩
        intro gy hgy x hx y hy
        have hnotb : ∀ y' ∈ gy, beq b y' = false := fun y' hy' =>
          (List.pairwise_cons.1 ihp).1 gy hgy b (List.mem_cons_self _ _) y' hy'
        rcases List.mem_cons.1 hx with rfl | hxg
        · by_contra hxy
          have hxy' : beq x y = true := by
            cases hcase : beq x y
            · exact absurd hcase hxy
            · rfl
          have hba : beq b x = true := hsymm _ _ hbeq
          have hby : beq b y = true := htrans _ _ _ hba hxy'
          rw [hnotb y hy] at hby
          cases hby
        · exact (List.pairwise_cons.1 ihp).1 gy hgy x hxg y hy
      · next hbeq =>
        refine List.pairwise_cons.2 ⟨?_, ihp⟩
        intro gy hgy x hx y hy
        rcases List.mem_singleton.1 hx with rfl
        have hyt : y ∈ b :: l' := by
          have hj : y ∈ ((b :: g0) :: gs).flatten := List.mem_flatten.2 ⟨gy, hgy, hy⟩
          rw [← hsplit, chunks_flatten] at hj
          exact hj
        by_contra hxy
        have hxy' : beq x y = true := by
          cases hcase : beq x y
          · exact absurd hcase hxy
          · rfl
        rcases List.mem_cons.1 hyt with rfl | hyl
        · rw [hxy'] at hbeq
          exact hbeq rfl
        · have hby : le b y := (List.pairwise_cons.1 htail).1 y hyl
          have hxb : beq x b = true := hconv x b y hab hby hxy'
          rw [hxb] at hbeq
          exact hbeq rfl

/-- Same-coordinate test for grouping the sorted rows (the adjacency test
`(u[:-1,0] != u[1:,0]) | (u[:-1,1] != u[1:,1])`, negated). -/
def sameCoord (a b : URow) : Bool := a.pi == b.pi && a.pj == b.pj

/-- Stage 5 on an already sorted-and-dedupped list `D`: per-coordinate
groups. -/
def groupsD (D : List URow) : List (List URow) := chunks sameCoord D

/-- `count_test` of a group: `np.bincount(rev_idx, u[:, 3])` sums the source
column over the group. -/
def srcSum (g : List URow) : ℕ := (g.map URow.src).sum

/-- `count_gt` of a group: `first_coord_counts - count_test`. -/
def gtCount (g : List URow) : ℕ := g.length - srcSum g

/-- `np.max(count_test)` over the coordinate groups. -/
def maxCT_D (D : List URow) : ℕ := maxList ((groupsD D).map srcSum)

/-- `np.max(count_gt)` over the coordinate groups. -/
def maxCG_D (D : List URow) : ℕ := maxList ((groupsD D).map gtCount)

/-- A class `(count, tnums, gnums)`, with the source's (swapped) field
names: `tnums = lm[idx, :j]` — actually the ground-truth labels — and
`gnums = lm[idx, j:]` — actually the test labels. -/
abbrev OClass := ℕ × List ℕ × List ℕ

/-- Lexicographic Bool comparison of label lists. -/
def lexLeB : List ℕ → List ℕ → Bool
  | [], _ => true
  | _ :: _, [] => false
  | a :: as, b :: bs => if a < b then true else if a = b then lexLeB as bs else false

/-- The order used by `np.lexsort(lm.transpose())`: the LAST column is the
primary key, so rows compare lexicographically from the right. -/
def revLexLe (r1 r2 : List ℕ) : Prop := lexLeB r1.reverse r2.reverse = true

instance : DecidableRel revLexLe := fun a b => by
  unfold revLexLe
  infer_instance

/-- Bucket `(i, j)` (source lines 620-647): take the coordinate groups with
`count_test = i` and `count_gt = j`, arrange their label rows (ground-truth
labels first, then test labels, as produced by the global sort), lexsort the
rows, group equal rows, and emit `(run length, row[:j], row[j:])` per
distinct row. -/
def bucketEntries (D : List URow) (i j : ℕ) : List OClass :=
  (chunks (fun r1 r2 => r1 == r2)
      (List.insertionSort revLexLe
        (((groupsD D).filter fun g => srcSum g == i && gtCount g == j).map
          fun g => g.map URow.lab))).map
    fun run => (run.length, (run.headD []).take j, (run.headD []).drop j)

/-- The `labels` list of classes (source lines 619-647). -/
def labelsD (D : List URow) : List OClass :=
  (List.range' 1 (maxCT_D D)).flatMap fun i =>
    (List.range' 1 (maxCG_D D)).flatMap fun j => bucketEntries D i j

/-- Stage 5-6 composed with stages 3-4. -/
def pipeLabels (u : List URow) : List OClass := labelsD (pipeD u)

/-- `np.sum(t1[:, np.newaxis] == t2[np.newaxis, :])`: the number of index
pairs holding equal labels. -/
def nhits (t1 t2 : List ℕ) : ℕ := (t1.map fun a => t2.count a).sum

/-- `max_t_labels = reduce(max, [len(t) for c, t, g in labels], 0)`. -/
def max_t_labels (L : List OClass) : ℕ := maxList (L.map fun c => c.2.1.length)

/-- `max_g_labels = reduce(max, [len(g) for c, t, g in labels], 0)`. -/
def max_g_labels (L : List OClass) : ℕ := maxList (L.map fun c => c.2.2.length)

/-- The `tbl` accumulation (source lines 659-673), as a function of the two
hit counts: class `i` contributes `c_i * (c_i - 1) / 2` at its self-pair hit
counts (`j == 0` in the source loop) and `c_i * c_j` at the hit counts of
each pair with a later class. -/
def tblList : List OClass → ℕ → ℕ → ℚ
  | [], _, _ => 0
  | c :: rest, a, b =>
    (if nhits c.2.1 c.2.1 = a ∧ nhits c.2.2 c.2.2 = b
     then (c.1 : ℚ) * ((c.1 : ℚ) - 1) / 2 else 0) +
    (rest.map fun c2 =>
      if nhits c.2.1 c2.2.1 = a ∧ nhits c.2.2 c2.2.2 = b
      then (c.1 : ℚ) * (c2.1 : ℚ) else 0).sum +
    tblList rest a b

/-- `N = np.sum(tbl)` over the array of shape
`(max_t_labels + 1, max_g_labels + 1)`. -/
def N_tbl (L : List OClass) : ℚ :=
  ∑ a ∈ Finset.range (max_t_labels L + 1),
    ∑ b ∈ Finset.range (max_g_labels L + 1), tblList L a b

/-- `min_JK = min(max_t_labels, max_g_labels) + 1`. -/
def min_JK (L : List OClass) : ℕ := min (max_t_labels L) (max_g_labels L) + 1

/-- Equation 13 numerator: the diagonal of the `min_JK × min_JK` block. -/
def randNum (L : List OClass) : ℚ :=
  ∑ a ∈ Finset.range (min_JK L), tblList L a a

/-- Equation 15 numerator:
`np.sum(np.sum(block, 0) * np.sum(block, 1))`. -/
def eOmegaNum (L : List OClass) : ℚ :=
  ∑ a ∈ Finset.range (min_JK L),
    (∑ r ∈ Finset.range (min_JK L), tblList L r a) *
      (∑ c ∈ Finset.range (min_JK L), tblList L a c)

/-- The returned `(rand_index, adjusted_rand_index)` of
`compute_rand_index_ijv`; `none` models NaN (`0/0`, or arithmetic involving
NaN: `adjusted = (rand - e_omega) / (1 - e_omega)`). -/
def pipeOutputs (L : List OClass) : Option ℚ × Option ℚ :=
  (qdiv (randNum L) (N_tbl L),
   match qdiv (randNum L) (N_tbl L), qdiv (eOmegaNum L) (N_tbl L * N_tbl L) with
   | some r, some e => qdiv (r - e) (1 - e)
   | _, _ => none)

/-- `compute_rand_index_ijv` (source lines 550-690). -/
def compute_rand_index_ijv (gt test : List Triple) (mask : List MCoord) :
    Option ℚ × Option ℚ :=
  pipeOutputs (pipeLabels (uRows gt test mask))

/-!
### Structure of the sorted-and-dedupped list `pipeD u`

`pipeD u` is the strictly `rowLt`-sorted enumeration of the SET of rows of
`u`: dropping a row equal to its predecessor preserves membership, and a
strictly sorted list is determined by its member set.  This is the key to
C10 (duplicate triples) and to the symmetry of the pipeline (C8).
-/

theorem mem_destutter'_ne {α : Type} [DecidableEq α] :
    ∀ (l : List α) (a x : α), (x ∈ l.destutter' (· ≠ ·) a) ↔ x = a ∨ x ∈ l := by
  intro l
  induction l with
  | nil =>
    intro a x
    simp [List.destutter']
  | cons c t ih =>
    intro a x
    by_cases hac : a ≠ c
    · rw [List.destutter'_cons_pos _ hac, List.mem_cons, ih c x]
      simp only [List.mem_cons]
    · rw [List.destutter'_cons_neg _ hac, ih a x]
      push_neg at hac
      subst hac
      simp only [List.mem_cons]
      tauto

theorem mem_destutter_ne {α : Type} [DecidableEq α] (l : List α) (x : α) :
    x ∈ l.destutter (· ≠ ·) ↔ x ∈ l := by
  cases l with
  | nil => simp [List.destutter]
  | cons a t =>
    rw [List.destutter_cons', mem_destutter'_ne, List.mem_cons]

theorem chain'_and_of {α : Type} {R S : α → α → Prop} :
    ∀ {l : List α}, l.Chain' R → l.Chain' S → l.Chain' fun a b => R a b ∧ S a b := by
  intro l
  induction l with
  | nil => intro _ _; exact List.chain'_nil
  | cons a t ih =>
    cases t with
    | nil => intro _ _; exact List.chain'_singleton a
    | cons b t' =>
      intro h1 h2
      rw [List.chain'_cons] at h1 h2 ⊢
      exact ⟨⟨h1.1, h2.1⟩, ih h1.2 h2.2⟩

theorem sorted_pipeD (u : List URow) : (pipeD u).Pairwise rowLt := by
  have hsorted : (List.insertionSort rowLe u).Pairwise rowLe :=
    List.sorted_insertionSort rowLe u
  have hsub : List.Sublist (pipeD u) (List.insertionSort rowLe u) :=
    List.destutter_sublist _ _
  have hle : (pipeD u).Pairwise rowLe := hsorted.sublist hsub
  have hne : (pipeD u).Chain' (· ≠ ·) := List.destutter_is_chain' _ _
  have hlt : (pipeD u).Chain' rowLt :=
    (chain'_and_of hle.chain' hne).imp fun _ _ h => rowLt_of_rowLe_ne h.1 h.2
  exact List.chain'_iff_pairwise.1 hlt

theorem nodup_pipeD (u : List URow) : (pipeD u).Nodup :=
  (sorted_pipeD u).imp ne_of_rowLt

theorem mem_pipeD (u : List URow) (x : URow) : x ∈ pipeD u ↔ x ∈ u := by
  rw [pipeD, mem_destutter_ne, List.mem_insertionSort]

/-- A strictly sorted dedup of `u` is determined by the member set of `u`. -/
theorem pipeD_eq_of_mem_iff {u v : List URow} (h : ∀ x, x ∈ u ↔ x ∈ v) :
    pipeD u = pipeD v := by
  have hperm : List.Perm (pipeD u) (pipeD v) :=
    (List.perm_ext_iff_of_nodup (nodup_pipeD u) (nodup_pipeD v)).2 fun x => by
      rw [mem_pipeD, mem_pipeD]
      exact h x
  exact List.eq_of_perm_of_sorted hperm (sorted_pipeD u) (sorted_pipeD v)

/-!
### C7: the NaN convention on degenerate inputs
-/

/-- **C7.**  When the set of valid pixels is empty, `compute_rand_index`
takes its `else` branch and reports `(NaN, NaN)`; and when the accumulated
pair count `N = np.sum(tbl)` is zero, `compute_rand_index_ijv` divides `0/0`
twice and reports `(NaN, NaN)`.  In both cases no exception is raised (both
functions are total). -/
theorem c7_degenerate_nan :
    (∀ px : List LPair, px = [] → compute_rand_index px = (none, none)) ∧
    (∀ (gt test : List Triple) (mask : List MCoord),
      N_tbl (pipeLabels (uRows gt test mask)) = 0 →
      compute_rand_index_ijv gt test mask = (none, none)) := by
  constructor
  · intro px h
    subst h
    rfl
  · intro gt test mask h
    rw [compute_rand_index_ijv, pipeOutputs, h]
    simp [qdiv]

/-- **C7 witness**: the empty pixel list, and the one-valid-coordinate input
(empty listings, mask `[(0,0)]`), whose only class is a single background
coordinate, contributing `choose2(1) = 0` pairs, so `N = 0`. -/
theorem c7_degenerate_nan_witness :
    compute_rand_index ([] : List LPair) = (none, none) ∧
      (N_tbl (pipeLabels (uRows [] [] [(0, 0)])) = 0 ∧
        compute_rand_index_ijv [] [] [(0, 0)] = (none, none)) := by
  have hlab : pipeLabels (uRows [] [] [(0, 0)]) = [(1, [0], [0])] := by decide
  have htbl : ∀ a b, tblList [(1, [0], [0])] a b = 0 := by
    intro a b
    rw [tblList, tblList]
    simp only [List.map_nil, List.sum_nil, add_zero]
    split
    · norm_num
    · rfl
  have hN : N_tbl (pipeLabels (uRows [] [] [(0, 0)])) = 0 := by
    rw [hlab, N_tbl]
    rw [Finset.sum_congr rfl fun a _ => Finset.sum_congr rfl fun b _ => htbl a b]
    simp
  exact ⟨c7_degenerate_nan.1 [] rfl,
    ⟨hN, c7_degenerate_nan.2 [] [] [(0, 0)] hN⟩⟩

/-!
### C10: duplicate ijv triples are harmless
-/

theorem bkgdCoords_append_dup (gt : List Triple) (mask : List MCoord)
    {d : Triple} (hd : d ∈ gt) :
    bkgdCoords (gt ++ [d]) mask = bkgdCoords gt mask := by
  rw [bkgdCoords, bkgdCoords]
  apply List.filter_congr
  intro c _
  have : ((gt ++ [d]).any fun t => t.1 == c.1 && t.2.1 == c.2) =
      (gt.any fun t => t.1 == c.1 && t.2.1 == c.2) := by
    rw [List.any_append]
    cases hpd : ([d].any fun t => t.1 == c.1 && t.2.1 == c.2)
    · rw [Bool.or_false]
    · have hgt : (gt.any fun t => t.1 == c.1 && t.2.1 == c.2) = true := by
        rw [List.any_eq_true]
        rw [List.any_eq_true] at hpd
        obtain ⟨x, hx, hpx⟩ := hpd
        rcases List.mem_singleton.1 hx with rfl
        exact ⟨x, hd, hpx⟩
      rw [hgt, Bool.true_or]
  rw [this]

theorem mem_withBkgd_append_dup (gt : List Triple) (mask : List MCoord)
    {d : Triple} (hd : d ∈ gt) (x : Triple) :
    x ∈ withBkgd (gt ++ [d]) mask ↔ x ∈ withBkgd gt mask := by
  rw [withBkgd, withBkgd, bkgdCoords_append_dup gt mask hd]
  rw [List.mem_append, List.mem_append, List.mem_append, List.mem_singleton]
  constructor
  · rintro ((h | rfl) | h)
    · exact Or.inl h
    · exact Or.inl hd
    · exact Or.inr h
  · rintro (h | h)
    · exact Or.inl (Or.inl h)
    · exact Or.inr h

theorem mem_mkURows {ijv : List Triple} {s : ℕ} {x : URow} :
    x ∈ mkURows ijv s ↔ ∃ t ∈ ijv, x = ⟨t.1, t.2.1, t.2.2, s⟩ := by
  rw [mkURows, List.mem_map]
  constructor
  · rintro ⟨t, ht, rfl⟩
    exact ⟨t, ht, rfl⟩
  · rintro ⟨t, ht, rfl⟩
    exact ⟨t, ht, rfl⟩

theorem mem_uRows_gt_append_dup (gt test : List Triple) (mask : List MCoord)
    {d : Triple} (hd : d ∈ gt) (x : URow) :
    x ∈ uRows (gt ++ [d]) test mask ↔ x ∈ uRows gt test mask := by
  simp only [uRows, List.mem_append, mem_mkURows]
  constructor
  · rintro (⟨t, ht, rfl⟩ | h)
    · exact Or.inl ⟨t, (mem_withBkgd_append_dup gt mask hd t).1 ht, rfl⟩
    · exact Or.inr h
  · rintro (⟨t, ht, rfl⟩ | h)
    · exact Or.inl ⟨t, (mem_withBkgd_append_dup gt mask hd t).2 ht, rfl⟩
    · exact Or.inr h

theorem mem_uRows_test_append_dup (gt test : List Triple) (mask : List MCoord)
    {d : Triple} (hd : d ∈ test) (x : URow) :
    x ∈ uRows gt (test ++ [d]) mask ↔ x ∈ uRows gt test mask := by
  simp only [uRows, List.mem_append, mem_mkURows]
  constructor
  · rintro (h | ⟨t, ht, rfl⟩)
    · exact Or.inl h
    · exact Or.inr ⟨t, (mem_withBkgd_append_dup test mask hd t).1 ht, rfl⟩
  · rintro (h | ⟨t, ht, rfl⟩)
    · exact Or.inl h
    · exact Or.inr ⟨t, (mem_withBkgd_append_dup test mask hd t).2 ht, rfl⟩

/-- **C10.**  Appending an exact duplicate of an existing `(row, col, label)`
triple to either listing leaves both returned indices unchanged: the
duplicate row is adjacent to its original after the lexicographic sort and
is removed by the duplicate-dropping step, so the sorted-and-dedupped array
`pipeD` — and with it everything downstream — is literally identical. -/
theorem c10_duplicate_triples (gt test : List Triple) (mask : List MCoord)
    (d : Triple) :
    (d ∈ gt →
      compute_rand_index_ijv (gt ++ [d]) test mask =
        compute_rand_index_ijv gt test mask) ∧
    (d ∈ test →
      compute_rand_index_ijv gt (test ++ [d]) mask =
        compute_rand_index_ijv gt test mask) := by
  constructor
  · intro hd
    rw [compute_rand_index_ijv, compute_rand_index_ijv, pipeLabels, pipeLabels,
      pipeD_eq_of_mem_iff (mem_uRows_gt_append_dup gt test mask hd)]
  · intro hd
    rw [compute_rand_index_ijv, compute_rand_index_ijv, pipeLabels, pipeLabels,
      pipeD_eq_of_mem_iff (mem_uRows_test_append_dup gt test mask hd)]

/-- **C10 witness**: duplicating the single triple of the ground-truth
listing on a one-pixel mask. -/
theorem c10_duplicate_triples_witness :
    ((0, 0, 1) : Triple) ∈ [((0, 0, 1) : Triple)] ∧
      compute_rand_index_ijv [(0, 0, 1), (0, 0, 1)] [(0, 0, 1)] [(0, 0)] =
        compute_rand_index_ijv [(0, 0, 1)] [(0, 0, 1)] [(0, 0)] :=
  ⟨List.mem_singleton.2 rfl,
   (c10_duplicate_triples [(0, 0, 1)] [(0, 0, 1)] [(0, 0)] (0, 0, 1)).1
     (List.mem_singleton.2 rfl)⟩

/-!
### C1: the returned formulas in terms of the enumerated class pairs

The source's pair loop visits every unordered pair of classes once (each
class with itself at `j == 0`, then with every later class).  `pairsOfW`
enumerates these visits together with the contributed pair count
(`choose2(count)` for self-pairs, `count₁·count₂` for cross pairs), and the
claim-side table buckets the contributions by the TRUE numbers of shared
test and ground-truth labels (recall that the source's `tnums` block holds
the ground-truth labels, so the claim-side table is the transpose of the
code's `tbl`; all returned quantities are transpose-invariant).
-/

/-- The pairs visited by the `tbl` loop, with their contributed counts. -/
def pairsOfW : List OClass → List (OClass × OClass × ℚ)
  | [] => []
  | c :: rest =>
    (c, c, (c.1 : ℚ) * ((c.1 : ℚ) - 1) / 2) ::
      ((rest.map fun c2 => (c, c2, (c.1 : ℚ) * (c2.1 : ℚ))) ++ pairsOfW rest)

/-- Number of shared test labels of a visited pair (the `gnums` blocks hold
the test labels). -/
def hitsTest (p : OClass × OClass × ℚ) : ℕ := nhits p.1.2.2 p.2.1.2.2

/-- Number of shared ground-truth labels of a visited pair. -/
def hitsGt (p : OClass × OClass × ℚ) : ℕ := nhits p.1.2.1 p.2.1.2.1

/-- Claim-side table: `tbl[hits_test][hits_gt]` accumulates the pair
counts. -/
def tblClaim (L : List OClass) (a b : ℕ) : ℚ :=
  ((pairsOfW L).map fun p =>
    if hitsTest p = a ∧ hitsGt p = b then p.2.2 else 0).sum

/-- Claim-side `N_total`: the sum of all of `tbl`. -/
def NtotalClaim (L : List OClass) : ℚ := ((pairsOfW L).map fun p => p.2.2).sum

/-- Maximum observed `hits_test`. -/
def maxHitsTest (L : List OClass) : ℕ := maxList ((pairsOfW L).map hitsTest)

/-- Maximum observed `hits_gt`. -/
def maxHitsGt (L : List OClass) : ℕ := maxList ((pairsOfW L).map hitsGt)

/-- Claim-side `min_JK = min(max observed hits_test, max observed hits_gt) + 1`. -/
def minJKClaim (L : List OClass) : ℕ := min (maxHitsTest L) (maxHitsGt L) + 1

/-- Claim-side rand numerator: the diagonal of the `min_JK` block. -/
def randNumClaim (L : List OClass) : ℚ :=
  ∑ i ∈ Finset.range (minJKClaim L), tblClaim L i i

/-- Claim-side `e_omega` numerator:
`Σ_i row_sum(tbl)[i] · col_sum(tbl)[i]` over the `min_JK` block. -/
def eOmegaNumClaim (L : List OClass) : ℚ :=
  ∑ i ∈ Finset.range (minJKClaim L),
    (∑ c ∈ Finset.range (minJKClaim L), tblClaim L i c) *
      (∑ r ∈ Finset.range (minJKClaim L), tblClaim L r i)

/-- The code's `tbl` as a sum over the visited pairs (code-side hit order:
first block, then second block). -/
theorem tblList_eq_pairs (L : List OClass) (a b : ℕ) :
    tblList L a b =
      ((pairsOfW L).map fun p =>
        if nhits p.1.2.1 p.2.1.2.1 = a ∧ nhits p.1.2.2 p.2.1.2.2 = b
        then p.2.2 else 0).sum := by
  induction L with
  | nil => rfl
  | cons c rest ih =>
    rw [tblList, pairsOfW, List.map_cons, List.sum_cons, List.map_append,
      List.sum_append, List.map_map, ih, add_assoc]
    refine congrArg₂ (fun x y => x + y) rfl (congrArg₂ (fun x y => x + y) ?_ rfl)
    apply congrArg
    apply List.map_congr_left
    intro c2 _
    rfl

/-- The claim-side table is the transpose of the code's table. -/
theorem tblClaim_eq_transpose (L : List OClass) (a b : ℕ) :
    tblClaim L a b = tblList L b a := by
  rw [tblClaim, tblList_eq_pairs]
  apply congrArg
  apply List.map_congr_left
  intro p _
  rw [hitsTest, hitsGt]
  rcases Classical.em (nhits p.1.2.2 p.2.1.2.2 = a) with h1 | h1 <;>
    rcases Classical.em (nhits p.1.2.1 p.2.1.2.1 = b) with h2 | h2 <;>
      simp [h1, h2]

theorem maxList_le_iff {l : List ℕ} {n : ℕ} :
    maxList l ≤ n ↔ ∀ x ∈ l, x ≤ n := by
  induction l with
  | nil => simp [maxList]
  | cons a t ih =>
    rw [maxList] at ih ⊢
    simp only [List.foldr_cons, max_le_iff, List.mem_cons, ih]
    constructor
    · rintro ⟨h1, h2⟩ x (rfl | hx)
      · exact h1
      · exact h2 x hx
    · intro h
      exact ⟨h a (Or.inl rfl), fun x hx => h x (Or.inr hx)⟩

theorem pairsOfW_mem {L : List OClass} :
    ∀ p ∈ pairsOfW L, p.1 ∈ L ∧ p.2.1 ∈ L := by
  induction L with
  | nil => intro p hp; cases hp
  | cons c rest ih =>
    intro p hp
    rw [pairsOfW, List.mem_cons, List.mem_append] at hp
    rcases hp with rfl | hp | hp
    · exact ⟨List.mem_cons_self _ _, List.mem_cons_self _ _⟩
    · obtain ⟨c2, hc2, rfl⟩ := List.mem_map.1 hp
      exact ⟨List.mem_cons_self _ _, List.mem_cons_of_mem _ hc2⟩
    · obtain ⟨h1, h2⟩ := ih p hp
      exact ⟨List.mem_cons_of_mem _ h1, List.mem_cons_of_mem _ h2⟩

theorem self_pair_mem {L : List OClass} :
    ∀ c ∈ L, (c, c, (c.1 : ℚ) * ((c.1 : ℚ) - 1) / 2) ∈ pairsOfW L := by
  induction L with
  | nil => intro c hc; cases hc
  | cons c0 rest ih =>
    intro c hc
    rw [pairsOfW, List.mem_cons, List.mem_append]
    rcases List.mem_cons.1 hc with rfl | hc
    · exact Or.inl rfl
    · exact Or.inr (Or.inr (ih c hc))

theorem nhits_le_left {t1 t2 : List ℕ} (h2 : t2.Nodup) :
    nhits t1 t2 ≤ t1.length := by
  rw [nhits]
  induction t1 with
  | nil => simp
  | cons a t ih =>
    simp only [List.map_cons, List.sum_cons, List.length_cons]
    have h1 : t2.count a ≤ 1 := List.nodup_iff_count_le_one.1 h2 a
    omega

theorem nhits_self {t : List ℕ} (h : t.Nodup) : nhits t t = t.length := by
  induction t with
  | nil => rfl
  | cons a rest ih =>
    have hna : a ∉ rest := (List.nodup_cons.1 h).1
    have hrest : rest.Nodup := (List.nodup_cons.1 h).2
    rw [nhits, List.map_cons, List.sum_cons]
    have h1 : (a :: rest).count a = 1 := by
      rw [List.count_cons_self, List.count_eq_zero.2 hna]
    have h2 : (rest.map fun x => (a :: rest).count x).sum =
        (rest.map fun x => rest.count x).sum := by
      apply congrArg
      apply List.map_congr_left
      intro x hx
      rw [List.count_cons]
      have hxa : ¬(x = a) := fun he => hna (he ▸ hx)
      simp [hxa, Ne.symm hxa]
    rw [h1, h2, List.length_cons]
    rw [nhits] at ih
    rw [ih hrest]
    omega

/-!
### Structure of the class tuples: both label blocks are duplicate-free

A class row is the label column of one coordinate group of `pipeD u`.  Group
rows are strictly sorted, share one coordinate, and carry source tags in
`{0, 1}`, so each row splits as (sorted ground-truth labels) ++ (sorted test
labels) with strictly increasing labels inside each block.
-/

theorem chunks_sublist {α : Type} {beq : α → α → Bool} {l : List α}
    {g : List α} (hg : g ∈ chunks beq l) : List.Sublist g l := by
  rw [← chunks_flatten beq l]
  exact List.sublist_flatten_of_mem hg

theorem chain'_pairwise_of_trans {α : Type} {R : α → α → Prop}
    (htr : ∀ a b c, R a b → R b c → R a c) :
    ∀ {l : List α}, l.Chain' R → l.Pairwise R := by
  intro l
  induction l with
  | nil => intro _; exact List.Pairwise.nil
  | cons a t ih =>
    intro h
    have hp : t.Pairwise R := ih h.tail
    refine List.pairwise_cons.2 ⟨?_, hp⟩
    intro y hy
    cases t with
    | nil => cases hy
    | cons b t' =>
      have hab : R a b := (List.chain'_cons.1 h).1
      rcases List.mem_cons.1 hy with rfl | hyt
      · exact hab
      · exact htr _ _ _ hab ((List.pairwise_cons.1 hp).1 y hyt)

theorem sameCoord_trans {a b c : URow} (h1 : sameCoord a b = true)
    (h2 : sameCoord b c = true) : sameCoord a c = true := by
  simp only [sameCoord, Bool.and_eq_true, beq_iff_eq] at *
  omega

theorem sameCoord_symm {a b : URow} (h : sameCoord a b = true) :
    sameCoord b a = true := by
  simp only [sameCoord, Bool.and_eq_true, beq_iff_eq] at *
  omega

/-- A group is strictly sorted and lives on a single coordinate. -/
theorem group_pairwise {u : List URow} {g : List URow}
    (hg : g ∈ groupsD (pipeD u)) :
    g.Pairwise fun a b => rowLt a b ∧ sameCoord a b = true := by
  have h1 : g.Pairwise rowLt := (sorted_pipeD u).sublist (chunks_sublist hg)
  have h2 : g.Pairwise fun a b => sameCoord a b = true :=
    @chain'_pairwise_of_trans URow (fun a b => sameCoord a b = true)
      (fun _ _ _ h1 h2 => sameCoord_trans h1 h2) g (chunks_chain hg)
  exact h1.and h2

theorem group_src_wf {u : List URow} (hWF : ∀ r ∈ u, r.src = 0 ∨ r.src = 1)
    {g : List URow} (hg : g ∈ groupsD (pipeD u)) :
    ∀ r ∈ g, r.src = 0 ∨ r.src = 1 := fun r hr =>
  hWF r ((mem_pipeD u r).1 (chunks_mem_of_mem_chunk hg hr))

/-- A list of rows that is sorted by source splits into its source-0 block
followed by its source-1 block. -/
theorem split_by_src : ∀ (g : List URow),
    g.Pairwise (fun a b => a.src ≤ b.src) →
    (∀ r ∈ g, r.src = 0 ∨ r.src = 1) →
    g = (g.filter fun r => r.src == 0) ++ (g.filter fun r => r.src == 1) := by
  intro g
  induction g with
  | nil => intro _ _; rfl
  | cons a t ih =>
    intro hsorted hwf
    rcases hwf a (List.mem_cons_self _ _) with h0 | h1
    · rw [List.filter_cons_of_pos (by simp [h0]),
        List.filter_cons_of_neg (by simp [h0])]
      rw [List.cons_append]
      exact congrArg (a :: ·)
        (ih hsorted.of_cons fun r hr => hwf r (List.mem_cons_of_mem _ hr))
    · -- head has source 1: every row has source 1
      have hall : ∀ r ∈ a :: t, r.src = 1 := by
        intro r hr
        rcases List.mem_cons.1 hr with rfl | hrt
        · exact h1
        · have := (List.pairwise_cons.1 hsorted).1 r hrt
          rcases hwf r hr with h | h
          · omega
          · exact h
      rw [List.filter_eq_nil_iff.2 (fun r hr => by simp [hall r hr]),
        List.filter_eq_self.2 (fun r hr => by simp [hall r hr]),
        List.nil_append]

/-- With sources in `{0,1}`, `count_test = Σ src` is the length of the
source-1 block. -/
theorem srcSum_eq_filter_length : ∀ (g : List URow),
    (∀ r ∈ g, r.src = 0 ∨ r.src = 1) →
    srcSum g = (g.filter fun r => r.src == 1).length := by
  intro g
  induction g with
  | nil => intro _; rfl
  | cons a t ih =>
    intro hwf
    have ht := ih fun r hr => hwf r (List.mem_cons_of_mem _ hr)
    rcases hwf a (List.mem_cons_self _ _) with h0 | h1
    · rw [srcSum, List.map_cons, List.sum_cons, h0,
        List.filter_cons_of_neg (by simp [h0])]
      rw [srcSum] at ht
      omega
    · rw [srcSum, List.map_cons, List.sum_cons, h1,
        List.filter_cons_of_pos (by simp [h1]), List.length_cons]
      rw [srcSum] at ht
      omega

/-- Every class produced by the pipeline has duplicate-free `tnums` and
`gnums` tuples: they are the (strictly sorted) ground-truth and test label
blocks of one coordinate group. -/
theorem pipeLabels_nodup (u : List URow)
    (hWF : ∀ r ∈ u, r.src = 0 ∨ r.src = 1) :
    ∀ cls ∈ pipeLabels u, cls.2.1.Nodup ∧ cls.2.2.Nodup := by
  intro cls hcls
  rw [pipeLabels, labelsD, List.mem_flatMap] at hcls
  obtain ⟨i, _, hcls⟩ := hcls
  rw [List.mem_flatMap] at hcls
  obtain ⟨j, hj, hcls⟩ := hcls
  rw [bucketEntries, List.mem_map] at hcls
  obtain ⟨run, hrun, rfl⟩ := hcls
  obtain ⟨x, rs, rfl⟩ := List.exists_cons_of_ne_nil (chunks_ne_nil hrun)
  have hx : x ∈ List.insertionSort revLexLe
      (((groupsD (pipeD u)).filter fun g => srcSum g == i && gtCount g == j).map
        fun g => g.map URow.lab) :=
    chunks_mem_of_mem_chunk hrun (List.mem_cons_self _ _)
  rw [List.mem_insertionSort, List.mem_map] at hx
  obtain ⟨g, hgfilter, hrow⟩ := hx
  have hgmem : g ∈ groupsD (pipeD u) := List.mem_of_mem_filter hgfilter
  have hcond := List.of_mem_filter hgfilter
  simp only [Bool.and_eq_true, beq_iff_eq] at hcond
  obtain ⟨hsrcsum, hgtcount⟩ := hcond
  have hwf : ∀ r ∈ g, r.src = 0 ∨ r.src = 1 := group_src_wf hWF hgmem
  have hpair := group_pairwise hgmem
  have hsrcle : g.Pairwise fun a b => a.src ≤ b.src := by
    refine hpair.imp fun {a b} h => ?_
    obtain ⟨hlt, hsc⟩ := h
    simp only [sameCoord, Bool.and_eq_true, beq_iff_eq] at hsc
    unfold rowLt at hlt
    omega
  have hsplit := split_by_src g hsrcle hwf
  have hlen1 : (g.filter fun r => r.src == 1).length = srcSum g :=
    (srcSum_eq_filter_length g hwf).symm
  have htot : g.length =
      (g.filter fun r => r.src == 0).length +
        (g.filter fun r => r.src == 1).length := by
    conv_lhs => rw [hsplit]
    rw [List.length_append]
  have hsrcsum_le : srcSum g ≤ g.length := by omega
  have hlen0 : (g.filter fun r => r.src == 0).length = gtCount g := by
    rw [gtCount]
    omega
  have hx_eq : x = ((g.filter fun r => r.src == 0).map URow.lab) ++
      ((g.filter fun r => r.src == 1).map URow.lab) := by
    rw [← hrow]
    conv_lhs => rw [hsplit]
    rw [List.map_append]
  have hnodup0 : ((g.filter fun r => r.src == 0).map URow.lab).Nodup := by
    have hp0 : (g.filter fun r => r.src == 0).Pairwise
        fun a b => rowLt a b ∧ sameCoord a b = true :=
      hpair.sublist (List.filter_sublist _)
    have hlab : (g.filter fun r => r.src == 0).Pairwise
        fun a b => a.lab ≠ b.lab := by
      refine hp0.imp_of_mem ?_
      intro a b ha hb hab
      have hsa : a.src = 0 := by simpa using List.of_mem_filter ha
      have hsb : b.src = 0 := by simpa using List.of_mem_filter hb
      obtain ⟨hlt, hsc⟩ := hab
      simp only [sameCoord, Bool.and_eq_true, beq_iff_eq] at hsc
      unfold rowLt at hlt
      omega
    show List.Pairwise (· ≠ ·) _
    rw [List.pairwise_map]
    exact hlab
  have hnodup1 : ((g.filter fun r => r.src == 1).map URow.lab).Nodup := by
    have hp1 : (g.filter fun r => r.src == 1).Pairwise
        fun a b => rowLt a b ∧ sameCoord a b = true :=
      hpair.sublist (List.filter_sublist _)
    have hlab : (g.filter fun r => r.src == 1).Pairwise
        fun a b => a.lab ≠ b.lab := by
      refine hp1.imp_of_mem ?_
      intro a b ha hb hab
      have hsa : a.src = 1 := by simpa using List.of_mem_filter ha
      have hsb : b.src = 1 := by simpa using List.of_mem_filter hb
      obtain ⟨hlt, hsc⟩ := hab
      simp only [sameCoord, Bool.and_eq_true, beq_iff_eq] at hsc
      unfold rowLt at hlt
      omega
    show List.Pairwise (· ≠ ·) _
    rw [List.pairwise_map]
    exact hlab
  have hjlen : j = ((g.filter fun r => r.src == 0).map URow.lab).length := by
    rw [List.length_map, hlen0, hgtcount]
  have hA : x.take j = (g.filter fun r => r.src == 0).map URow.lab := by
    rw [hx_eq, hjlen, List.take_left]
  have hB : x.drop j = (g.filter fun r => r.src == 1).map URow.lab := by
    rw [hx_eq, hjlen, List.drop_left]
  exact ⟨hA ▸ hnodup0, hB ▸ hnodup1⟩

theorem maxHitsTest_eq {L : List OClass}
    (hnodup : ∀ cls ∈ L, cls.2.1.Nodup ∧ cls.2.2.Nodup) :
    maxHitsTest L = max_g_labels L := by
  apply le_antisymm
  · rw [maxHitsTest, maxList_le_iff]
    intro x hx
    obtain ⟨p, hp, rfl⟩ := List.mem_map.1 hx
    obtain ⟨h1, h2⟩ := pairsOfW_mem p hp
    calc hitsTest p ≤ p.1.2.2.length := nhits_le_left (hnodup _ h2).2
    _ ≤ max_g_labels L := maxList_le_of_mem (List.mem_map.2 ⟨p.1, h1, rfl⟩)
  · rw [max_g_labels, maxList_le_iff]
    intro x hx
    obtain ⟨cls, hcls, rfl⟩ := List.mem_map.1 hx
    have hself := self_pair_mem cls hcls
    have hval : hitsTest (cls, cls, (cls.1 : ℚ) * ((cls.1 : ℚ) - 1) / 2) =
        cls.2.2.length := nhits_self (hnodup _ hcls).2
    calc cls.2.2.length = _ := hval.symm
    _ ≤ maxHitsTest L := maxList_le_of_mem (List.mem_map.2 ⟨_, hself, rfl⟩)

theorem maxHitsGt_eq {L : List OClass}
    (hnodup : ∀ cls ∈ L, cls.2.1.Nodup ∧ cls.2.2.Nodup) :
    maxHitsGt L = max_t_labels L := by
  apply le_antisymm
  · rw [maxHitsGt, maxList_le_iff]
    intro x hx
    obtain ⟨p, hp, rfl⟩ := List.mem_map.1 hx
    obtain ⟨h1, h2⟩ := pairsOfW_mem p hp
    calc hitsGt p ≤ p.1.2.1.length := nhits_le_left (hnodup _ h2).1
    _ ≤ max_t_labels L := maxList_le_of_mem (List.mem_map.2 ⟨p.1, h1, rfl⟩)
  · rw [max_t_labels, maxList_le_iff]
    intro x hx
    obtain ⟨cls, hcls, rfl⟩ := List.mem_map.1 hx
    have hself := self_pair_mem cls hcls
    have hval : hitsGt (cls, cls, (cls.1 : ℚ) * ((cls.1 : ℚ) - 1) / 2) =
        cls.2.1.length := nhits_self (hnodup _ hcls).1
    calc cls.2.1.length = _ := hval.symm
    _ ≤ maxHitsGt L := maxList_le_of_mem (List.mem_map.2 ⟨_, hself, rfl⟩)

theorem minJKClaim_eq {L : List OClass}
    (hnodup : ∀ cls ∈ L, cls.2.1.Nodup ∧ cls.2.2.Nodup) :
    minJKClaim L = min_JK L := by
  rw [minJKClaim, min_JK, maxHitsTest_eq hnodup, maxHitsGt_eq hnodup,
    Nat.min_comm]

theorem finset_sum_list_sum {β : Type} (s t : Finset ℕ) (P : List β)
    (f : β → ℕ → ℕ → ℚ) :
    (∑ a ∈ s, ∑ b ∈ t, (P.map fun p => f p a b).sum) =
      (P.map fun p => ∑ a ∈ s, ∑ b ∈ t, f p a b).sum := by
  induction P with
  | nil => simp
  | cons p rest ih =>
    simp only [List.map_cons, List.sum_cons, Finset.sum_add_distrib, ih]

theorem sum_range_ite_pair {h1 h2 : ℕ} (w : ℚ) {n1 n2 : ℕ} (hh1 : h1 < n1)
    (hh2 : h2 < n2) :
    (∑ a ∈ Finset.range n1, ∑ b ∈ Finset.range n2,
      if h1 = a ∧ h2 = b then w else 0) = w := by
  have hinner : ∀ a ∈ Finset.range n1,
      (∑ b ∈ Finset.range n2, if h1 = a ∧ h2 = b then w else 0) =
        if h1 = a then w else 0 := by
    intro a _
    rcases eq_or_ne h1 a with rfl | hne
    · rw [if_pos rfl]
      have hstep : ∀ b ∈ Finset.range n2,
          (if h1 = h1 ∧ h2 = b then w else 0) = if h2 = b then w else 0 :=
        fun b _ => by simp
      rw [Finset.sum_congr rfl hstep,
        Finset.sum_ite_eq (Finset.range n2) h2 fun _ => w,
        if_pos (Finset.mem_range.2 hh2)]
    · rw [if_neg hne]
      apply Finset.sum_eq_zero
      intro b _
      rw [if_neg fun hc => hne hc.1]
  rw [Finset.sum_congr rfl hinner,
    Finset.sum_ite_eq (Finset.range n1) h1 fun _ => w,
    if_pos (Finset.mem_range.2 hh1)]

/-- The dense-array total `N = np.sum(tbl)` equals the total pair count. -/
theorem N_tbl_eq_NtotalClaim {L : List OClass}
    (hnodup : ∀ cls ∈ L, cls.2.1.Nodup ∧ cls.2.2.Nodup) :
    N_tbl L = NtotalClaim L := by
  rw [N_tbl,
    Finset.sum_congr rfl fun a _ => Finset.sum_congr rfl fun b _ =>
      tblList_eq_pairs L a b,
    finset_sum_list_sum, NtotalClaim]
  apply congrArg
  apply List.map_congr_left
  intro p hp
  obtain ⟨h1, h2⟩ := pairsOfW_mem p hp
  have hb1 : nhits p.1.2.1 p.2.1.2.1 < max_t_labels L + 1 := by
    have ha : nhits p.1.2.1 p.2.1.2.1 ≤ p.1.2.1.length :=
      nhits_le_left (hnodup _ h2).1
    have hbb : p.1.2.1.length ≤ max_t_labels L := by
      rw [max_t_labels]
      exact maxList_le_of_mem (List.mem_map.2 ⟨p.1, h1, rfl⟩)
    omega
  have hb2 : nhits p.1.2.2 p.2.1.2.2 < max_g_labels L + 1 := by
    have ha : nhits p.1.2.2 p.2.1.2.2 ≤ p.1.2.2.length :=
      nhits_le_left (hnodup _ h2).2
    have hbb : p.1.2.2.length ≤ max_g_labels L := by
      rw [max_g_labels]
      exact maxList_le_of_mem (List.mem_map.2 ⟨p.1, h1, rfl⟩)
    omega
  exact sum_range_ite_pair p.2.2 hb1 hb2

theorem randNum_eq_claim {L : List OClass}
    (hnodup : ∀ cls ∈ L, cls.2.1.Nodup ∧ cls.2.2.Nodup) :
    randNum L = randNumClaim L := by
  rw [randNum, randNumClaim, minJKClaim_eq hnodup]
  exact Finset.sum_congr rfl fun i _ => (tblClaim_eq_transpose L i i).symm

theorem eOmegaNum_eq_claim {L : List OClass}
    (hnodup : ∀ cls ∈ L, cls.2.1.Nodup ∧ cls.2.2.Nodup) :
    eOmegaNum L = eOmegaNumClaim L := by
  rw [eOmegaNum, eOmegaNumClaim, minJKClaim_eq hnodup]
  refine Finset.sum_congr rfl fun i _ => ?_
  refine congrArg₂ (fun x y => x * y) ?_ ?_
  · exact (Finset.sum_congr rfl fun c _ => tblClaim_eq_transpose L i c).symm
  · exact (Finset.sum_congr rfl fun r _ => tblClaim_eq_transpose L r i).symm

theorem pipeOutputs_claim_form (L : List OClass)
    (hnodup : ∀ cls ∈ L, cls.2.1.Nodup ∧ cls.2.2.Nodup)
    (hN : NtotalClaim L ≠ 0) :
    pipeOutputs L =
      (some (randNumClaim L / NtotalClaim L),
       qdiv (randNumClaim L / NtotalClaim L -
             eOmegaNumClaim L / (NtotalClaim L * NtotalClaim L))
            (1 - eOmegaNumClaim L / (NtotalClaim L * NtotalClaim L))) := by
  rw [pipeOutputs, N_tbl_eq_NtotalClaim hnodup, randNum_eq_claim hnodup,
    eOmegaNum_eq_claim hnodup, qdiv, if_neg hN, qdiv,
    if_neg (mul_ne_zero hN hN)]

theorem uRows_src_wf (gt test : List Triple) (mask : List MCoord) :
    ∀ r ∈ uRows gt test mask, r.src = 0 ∨ r.src = 1 := by
  intro r hr
  rw [uRows, List.mem_append] at hr
  rcases hr with h | h
  · obtain ⟨t, _, rfl⟩ := mem_mkURows.1 h
    exact Or.inl rfl
  · obtain ⟨t, _, rfl⟩ := mem_mkURows.1 h
    exact Or.inr rfl

/-- **C1.**  For every pair of sparse labelings and mask whose class-pair
enumeration accumulates a nonzero total pair count `N_total`,
`compute_rand_index_ijv` returns
`rand_index = (Σ_{i < min_JK} tbl[i][i]) / N_total` and
`adjusted_rand_index = (rand_index − e_omega) / (1 − e_omega)` with
`e_omega = (Σ_i row_sum(tbl)[i] · col_sum(tbl)[i]) / N_total²` restricted to
the `min_JK × min_JK` block, where `tbl[hits_test][hits_gt]` accumulates the
coordinate-pair counts of every unordered pair of classes (`choose2(size)`
for self-pairs, `size₁·size₂` for cross pairs) bucketed by the numbers of
shared test and ground-truth labels, `N_total` is the sum of all of `tbl`,
and `min_JK = min(max observed hits_test, max observed hits_gt) + 1`. -/
theorem c1_omega_rand_formulas (gt test : List Triple) (mask : List MCoord)
    (hN : NtotalClaim (pipeLabels (uRows gt test mask)) ≠ 0) :
    compute_rand_index_ijv gt test mask =
      (some (randNumClaim (pipeLabels (uRows gt test mask)) /
             NtotalClaim (pipeLabels (uRows gt test mask))),
       qdiv (randNumClaim (pipeLabels (uRows gt test mask)) /
               NtotalClaim (pipeLabels (uRows gt test mask)) -
             eOmegaNumClaim (pipeLabels (uRows gt test mask)) /
               (NtotalClaim (pipeLabels (uRows gt test mask)) *
                 NtotalClaim (pipeLabels (uRows gt test mask))))
            (1 - eOmegaNumClaim (pipeLabels (uRows gt test mask)) /
               (NtotalClaim (pipeLabels (uRows gt test mask)) *
                 NtotalClaim (pipeLabels (uRows gt test mask))))) := by
  rw [compute_rand_index_ijv]
  exact pipeOutputs_claim_form _
    (pipeLabels_nodup _ (uRows_src_wf gt test mask)) hN

/-- **C1 witness**: two coordinates, each labeled 1 in both listings.  The
single class has size 2 and contributes one coordinate pair, so
`N_total = 1 ≠ 0`. -/
theorem c1_omega_rand_formulas_witness :
    NtotalClaim (pipeLabels (uRows [(0, 0, 1), (0, 1, 1)]
        [(0, 0, 1), (0, 1, 1)] [(0, 0), (0, 1)])) ≠ 0 ∧
      compute_rand_index_ijv [(0, 0, 1), (0, 1, 1)] [(0, 0, 1), (0, 1, 1)]
          [(0, 0), (0, 1)] =
        (some (randNumClaim (pipeLabels (uRows [(0, 0, 1), (0, 1, 1)]
                 [(0, 0, 1), (0, 1, 1)] [(0, 0), (0, 1)])) /
               NtotalClaim (pipeLabels (uRows [(0, 0, 1), (0, 1, 1)]
                 [(0, 0, 1), (0, 1, 1)] [(0, 0), (0, 1)]))),
         qdiv (randNumClaim (pipeLabels (uRows [(0, 0, 1), (0, 1, 1)]
                 [(0, 0, 1), (0, 1, 1)] [(0, 0), (0, 1)])) /
                 NtotalClaim (pipeLabels (uRows [(0, 0, 1), (0, 1, 1)]
                   [(0, 0, 1), (0, 1, 1)] [(0, 0), (0, 1)])) -
               eOmegaNumClaim (pipeLabels (uRows [(0, 0, 1), (0, 1, 1)]
                   [(0, 0, 1), (0, 1, 1)] [(0, 0), (0, 1)])) /
                 (NtotalClaim (pipeLabels (uRows [(0, 0, 1), (0, 1, 1)]
                     [(0, 0, 1), (0, 1, 1)] [(0, 0), (0, 1)])) *
                   NtotalClaim (pipeLabels (uRows [(0, 0, 1), (0, 1, 1)]
                     [(0, 0, 1), (0, 1, 1)] [(0, 0), (0, 1)]))))
              (1 - eOmegaNumClaim (pipeLabels (uRows [(0, 0, 1), (0, 1, 1)]
                   [(0, 0, 1), (0, 1, 1)] [(0, 0), (0, 1)])) /
                 (NtotalClaim (pipeLabels (uRows [(0, 0, 1), (0, 1, 1)]
                     [(0, 0, 1), (0, 1, 1)] [(0, 0), (0, 1)])) *
                   NtotalClaim (pipeLabels (uRows [(0, 0, 1), (0, 1, 1)]
                     [(0, 0, 1), (0, 1, 1)] [(0, 0), (0, 1)]))))) := by
  have hlab : pipeLabels (uRows [(0, 0, 1), (0, 1, 1)]
      [(0, 0, 1), (0, 1, 1)] [(0, 0), (0, 1)]) = [(2, [1], [1])] := by decide
  have hN : NtotalClaim (pipeLabels (uRows [(0, 0, 1), (0, 1, 1)]
      [(0, 0, 1), (0, 1, 1)] [(0, 0), (0, 1)])) ≠ 0 := by
    rw [hlab]
    norm_num [NtotalClaim, pairsOfW]
  exact ⟨hN, c1_omega_rand_formulas _ _ _ hN⟩

/-!
### C8: symmetry of the sparse pipeline

Swapping the two listings swaps the source tags, which (a) reverses the two
blocks of every coordinate row and (b) transposes the class tuples.  The
class list of the swapped run is a permutation of the classSwap-image of the
original class list, and every returned quantity is invariant under both a
permutation of the classes and the tuple transposition.
-/

/-- Transpose a class's two label blocks. -/
def classSwap (c : OClass) : OClass := (c.1, c.2.2, c.2.1)

theorem list_sum_map_add {α : Type} (l : List α) (f g : α → ℕ) :
    (l.map fun x => f x + g x).sum = (l.map f).sum + (l.map g).sum := by
  induction l with
  | nil => rfl
  | cons a t ih =>
    simp only [List.map_cons, List.sum_cons, ih]
    omega

theorem sum_ite_eq_count (t2 : List ℕ) (a : ℕ) :
    (t2.map fun b => if b = a then 1 else 0).sum = t2.count a := by
  induction t2 with
  | nil => rfl
  | cons b t ih =>
    rw [List.map_cons, List.sum_cons, ih, List.count_cons]
    rcases eq_or_ne b a with rfl | hne
    · simp only [if_pos rfl]
      have hbeq : (b == b) = true := beq_self_eq_true b
      simp only [hbeq, if_pos]
      omega
    · have hbeq : (b == a) = false := beq_eq_false_iff_ne.2 hne
      simp [hne, Ne.symm hne, hbeq]

theorem nhits_nil_right (t : List ℕ) : nhits t [] = 0 := by
  induction t with
  | nil => rfl
  | cons a t ih =>
    rw [nhits, List.map_cons, List.sum_cons, List.count_nil]
    rw [nhits] at ih
    omega

theorem nhits_comm (t1 t2 : List ℕ) : nhits t1 t2 = nhits t2 t1 := by
  induction t1 with
  | nil => rw [nhits_nil_right]; rfl
  | cons a t1 ih =>
    have hr : nhits t2 (a :: t1) = nhits t2 t1 + t2.count a := by
      rw [nhits, nhits]
      have hstep : (t2.map fun b => (a :: t1).count b).sum =
          (t2.map fun b => t1.count b + if b = a then 1 else 0).sum := by
        apply congrArg
        apply List.map_congr_left
        intro b _
        rw [List.count_cons]
        rcases eq_or_ne b a with rfl | hne
        · simp
        · simp [hne, Ne.symm hne]
      rw [hstep, list_sum_map_add, sum_ite_eq_count]
    rw [hr, ← ih, nhits, List.map_cons, List.sum_cons, nhits]
    omega

/-- `tblList` is invariant under permutations of the class list. -/
theorem tblList_perm {L L' : List OClass} (h : List.Perm L L') (a b : ℕ) :
    tblList L a b = tblList L' a b := by
  induction h with
  | nil => rfl
  | cons c htail ih =>
    rw [tblList, tblList, ih]
    have hsum : ∀ l l' : List OClass, List.Perm l l' →
        (l.map fun c2 =>
          if nhits c.2.1 c2.2.1 = a ∧ nhits c.2.2 c2.2.2 = b
          then (c.1 : ℚ) * (c2.1 : ℚ) else 0).sum =
        (l'.map fun c2 =>
          if nhits c.2.1 c2.2.1 = a ∧ nhits c.2.2 c2.2.2 = b
          then (c.1 : ℚ) * (c2.1 : ℚ) else 0).sum := fun l l' hp =>
      List.Perm.sum_eq (hp.map _)
    rw [hsum _ _ htail]
  | swap x y l =>
    rw [tblList, tblList, tblList, tblList, List.map_cons, List.sum_cons,
      List.map_cons, List.sum_cons]
    have hxy : (if nhits y.2.1 x.2.1 = a ∧ nhits y.2.2 x.2.2 = b
        then (y.1 : ℚ) * (x.1 : ℚ) else 0) =
        (if nhits x.2.1 y.2.1 = a ∧ nhits x.2.2 y.2.2 = b
        then (x.1 : ℚ) * (y.1 : ℚ) else 0) := by
      rw [nhits_comm y.2.1 x.2.1, nhits_comm y.2.2 x.2.2, mul_comm]
    rw [hxy]
    ring
  | trans h12 h23 ih1 ih2 =>
    rw [ih1, ih2]

/-- Transposing every class transposes the table. -/
theorem tblList_map_classSwap (L : List OClass) (a b : ℕ) :
    tblList (L.map classSwap) a b = tblList L b a := by
  induction L with
  | nil => rfl
  | cons c rest ih =>
    rw [List.map_cons, tblList, tblList, ih]
    have hself : (if nhits (classSwap c).2.1 (classSwap c).2.1 = a ∧
          nhits (classSwap c).2.2 (classSwap c).2.2 = b
        then ((classSwap c).1 : ℚ) * (((classSwap c).1 : ℚ) - 1) / 2 else 0) =
        (if nhits c.2.1 c.2.1 = b ∧ nhits c.2.2 c.2.2 = a
        then (c.1 : ℚ) * ((c.1 : ℚ) - 1) / 2 else 0) := by
      rw [classSwap]
      rcases Classical.em (nhits c.2.2 c.2.2 = a) with h1 | h1 <;>
        rcases Classical.em (nhits c.2.1 c.2.1 = b) with h2 | h2 <;>
          simp [h1, h2]
    have hcross : ((rest.map classSwap).map fun c2 =>
          if nhits (classSwap c).2.1 c2.2.1 = a ∧
              nhits (classSwap c).2.2 c2.2.2 = b
          then ((classSwap c).1 : ℚ) * (c2.1 : ℚ) else 0).sum =
        (rest.map fun c2 =>
          if nhits c.2.1 c2.2.1 = b ∧ nhits c.2.2 c2.2.2 = a
          then (c.1 : ℚ) * (c2.1 : ℚ) else 0).sum := by
      rw [List.map_map]
      apply congrArg
      apply List.map_congr_left
      intro c2 _
      simp only [Function.comp_apply, classSwap]
      rcases Classical.em (nhits c.2.2 c2.2.2 = a) with h1 | h1 <;>
        rcases Classical.em (nhits c.2.1 c2.2.1 = b) with h2 | h2 <;>
          simp [h1, h2]
    rw [hself, hcross]

theorem maxList_perm {l l' : List ℕ} (h : List.Perm l l') :
    maxList l = maxList l' := by
  induction h with
  | nil => rfl
  | cons a htail ih =>
    rw [maxList, maxList, List.foldr_cons, List.foldr_cons]
    rw [maxList, maxList] at ih
    rw [ih]
  | swap x y l =>
    simp only [maxList, List.foldr_cons]
    omega
  | trans h12 h23 ih1 ih2 => rw [ih1, ih2]

/-- On a partition into internally related, cross-unrelated chunks, the
`R h`-filter of the flattened list recovers the chunk containing `h`. -/
theorem partition_filter {α : Type} {R : α → α → Bool}
    (hsymmf : ∀ x y, R x y = false → R y x = false) :
    ∀ (P : List (List α)),
      (∀ g ∈ P, ∀ x ∈ g, ∀ y ∈ g, R x y = true) →
      (P.Pairwise fun g g' => ∀ x ∈ g, ∀ y ∈ g', R x y = false) →
      ∀ g ∈ P, ∀ h ∈ g, P.flatten.filter (fun r => R h r) = g := by
  intro P
  induction P with
  | nil => intro _ _ g hg; cases hg
  | cons g0 rest ih =>
    intro hin hcross g hg h hh
    rw [List.flatten_cons, List.filter_append]
    rcases List.mem_cons.1 hg with rfl | hgr
    · have hg0 : g.filter (fun r => R h r) = g :=
        List.filter_eq_self.2 fun y hy => hin g (List.mem_cons_self _ _) h hh y hy
      have hrest : rest.flatten.filter (fun r => R h r) = [] := by
        rw [List.filter_eq_nil_iff]
        intro y hy
        obtain ⟨g', hg', hyg⟩ := List.mem_flatten.1 hy
        have hf := (List.pairwise_cons.1 hcross).1 g' hg' h hh y hyg
        simp [hf]
      rw [hg0, hrest, List.append_nil]
    · have hg0 : g0.filter (fun r => R h r) = [] := by
        rw [List.filter_eq_nil_iff]
        intro y hy
        have hyx := (List.pairwise_cons.1 hcross).1 g hgr y hy h hh
        have hf := hsymmf _ _ hyx
        simp [hf]
      rw [hg0, List.nil_append]
      exact ih (fun g' hx => hin g' (List.mem_cons_of_mem _ hx))
        (List.pairwise_cons.1 hcross).2 g hgr h hh

theorem chunk_all_rel {α : Type} {beq : α → α → Bool}
    (hsymm : ∀ x y, beq x y = true → beq y x = true)
    (htrans : ∀ x y z, beq x y = true → beq y z = true → beq x z = true)
    (hrefl : ∀ x, beq x x = true)
    {l g : List α} (hg : g ∈ chunks beq l) :
    ∀ x ∈ g, ∀ y ∈ g, beq x y = true := by
  have hpair : g.Pairwise fun x y => beq x y = true :=
    @chain'_pairwise_of_trans α (fun x y => beq x y = true)
      (fun _ _ _ => htrans _ _ _) g (chunks_chain hg)
  intro x hx y hy
  rcases eq_or_ne x y with rfl | hne
  · exact hrefl x
  · exact hpair.forall (fun a b hab => hsymm _ _ hab) hx hy hne

/-- The runs of an `le`-sorted list under the equality test: each run is a
block of `count v` copies of one value `v` of the list. -/
theorem runs_iff {α : Type} [DecidableEq α] (beq : α → α → Bool)
    (hbeq : ∀ a b, beq a b = true ↔ a = b) (le : α → α → Prop)
    [DecidableRel le] [IsTotal α le] [IsTrans α le] [IsAntisymm α le]
    (l : List α) (run : List α) :
    run ∈ chunks beq (List.insertionSort le l) ↔
      ∃ v ∈ l, run = List.replicate (l.count v) v := by
  have hsorted : (List.insertionSort le l).Pairwise le :=
    List.sorted_insertionSort le l
  have hsymm : ∀ x y : α, beq x y = true → beq y x = true := fun x y h => by
    rw [hbeq] at h ⊢
    exact h.symm
  have htrans : ∀ x y z : α, beq x y = true → beq y z = true →
      beq x z = true := fun x y z h1 h2 => by
    rw [hbeq] at h1 h2 ⊢
    exact h1.trans h2
  have hconv : ∀ x y z : α, le x y → le y z → beq x z = true →
      beq x y = true := fun x y z hxy hyz h => by
    rw [hbeq] at h ⊢
    subst h
    exact antisymm hxy hyz
  have hrefl : ∀ x : α, beq x x = true := fun x => (hbeq x x).2 rfl
  have hsymmf : ∀ x y : α, beq x y = false → beq y x = false := fun x y h => by
    cases hc : beq y x
    · rfl
    · rw [hsymm y x hc] at h
      cases h
  have hpt : ∀ x r : α, (r == x) = beq x r := by
    intro x r
    cases hc : beq x r
    · rw [beq_eq_false_iff_ne]
      intro h
      rw [h, hrefl x] at hc
      cases hc
    · have hxr := (hbeq x r).1 hc
      subst hxr
      exact beq_self_eq_true x
  have hcross := chunks_pairwise_not hsymm htrans hconv hsorted
  have hin : ∀ g ∈ chunks beq (List.insertionSort le l),
      ∀ x ∈ g, ∀ y ∈ g, beq x y = true :=
    fun g hg => chunk_all_rel hsymm htrans hrefl hg
  constructor
  · intro hrun
    obtain ⟨x, rs, rfl⟩ := List.exists_cons_of_ne_nil (chunks_ne_nil hrun)
    have hxmem : x ∈ l := by
      have := chunks_mem_of_mem_chunk hrun (List.mem_cons_self _ _)
      rwa [List.mem_insertionSort] at this
    refine ⟨x, hxmem, ?_⟩
    have hfilter := partition_filter hsymmf _ hin hcross _ hrun x
      (List.mem_cons_self _ _)
    have hcount : l.count x = (x :: rs).length := by
      rw [← List.Perm.count_eq (List.perm_insertionSort le l),
        List.count_eq_countP, List.countP_eq_length_filter]
      rw [show (List.insertionSort le l).filter (fun b => b == x) =
          (List.insertionSort le l).filter (fun r => beq x r) from
        List.filter_congr fun r _ => hpt x r]
      rw [chunks_flatten beq (List.insertionSort le l)] at hfilter
      rw [hfilter]
    rw [hcount]
    rw [List.eq_replicate_iff]
    refine ⟨rfl, ?_⟩
    intro b hb
    have := hin _ hrun b hb x (List.mem_cons_self _ _)
    rwa [hbeq] at this
  · rintro ⟨v, hv, rfl⟩
    have hvs : v ∈ List.insertionSort le l := (List.mem_insertionSort le).2 hv
    obtain ⟨g, hg, hvg⟩ := List.mem_flatten.1
      (by rw [chunks_flatten]; exact hvs :
        v ∈ (chunks beq (List.insertionSort le l)).flatten)
    have hgrep : g = List.replicate (l.count v) v := by
      have hfilter := partition_filter hsymmf _ hin hcross _ hg v hvg
      have hcount : l.count v = g.length := by
        rw [← List.Perm.count_eq (List.perm_insertionSort le l),
          List.count_eq_countP, List.countP_eq_length_filter]
        rw [show (List.insertionSort le l).filter (fun b => b == v) =
            (List.insertionSort le l).filter (fun r => beq v r) from
          List.filter_congr fun r _ => hpt v r]
        rw [chunks_flatten beq (List.insertionSort le l)] at hfilter
        rw [hfilter]
      rw [hcount, List.eq_replicate_iff]
      refine ⟨rfl, ?_⟩
      intro b hb
      have := hin _ hg b hb v hvg
      rwa [hbeq] at this
    rw [← hgrep]
    exact hg

theorem lexLeB_total : ∀ a b : List ℕ, lexLeB a b = true ∨ lexLeB b a = true := by
  intro a
  induction a with
  | nil => intro b; left; rfl
  | cons x xs ih =>
    intro b
    cases b with
    | nil => right; rfl
    | cons y ys =>
      simp only [lexLeB]
      rcases Nat.lt_trichotomy x y with h | h | h
      · left
        rw [if_pos h]
      · subst h
        rw [if_neg (by omega), if_pos rfl, if_neg (by omega), if_pos rfl]
        exact ih ys
      · right
        rw [if_pos h]

theorem lexLeB_trans : ∀ a b c : List ℕ, lexLeB a b = true → lexLeB b c = true →
    lexLeB a c = true := by
  intro a
  induction a with
  | nil => intro b c _ _; rfl
  | cons x xs ih =>
    intro b c hab hbc
    cases b with
    | nil => simp [lexLeB] at hab
    | cons y ys =>
      cases c with
      | nil => simp [lexLeB] at hbc
      | cons z zs =>
        simp only [lexLeB] at hab hbc ⊢
        have hxy : x < y ∨ (x = y ∧ lexLeB xs ys = true) := by
          by_cases h1 : x < y
          · exact Or.inl h1
          · rw [if_neg h1] at hab
            by_cases h2 : x = y
            · rw [if_pos h2] at hab
              exact Or.inr ⟨h2, hab⟩
            · rw [if_neg h2] at hab
              cases hab
        have hyz : y < z ∨ (y = z ∧ lexLeB ys zs = true) := by
          by_cases h1 : y < z
          · exact Or.inl h1
          · rw [if_neg h1] at hbc
            by_cases h2 : y = z
            · rw [if_pos h2] at hbc
              exact Or.inr ⟨h2, hbc⟩
            · rw [if_neg h2] at hbc
              cases hbc
        rcases hxy with h1 | ⟨h1, hrec1⟩
        · rcases hyz with h2 | ⟨h2, _⟩
          · rw [if_pos (by omega)]
          · rw [if_pos (by omega)]
        · rcases hyz with h2 | ⟨h2, hrec2⟩
          · rw [if_pos (by omega)]
          · rw [if_neg (by omega), if_pos (by omega)]
            exact ih ys zs hrec1 hrec2

theorem lexLeB_antisymm : ∀ a b : List ℕ, lexLeB a b = true → lexLeB b a = true →
    a = b := by
  intro a
  induction a with
  | nil =>
    intro b hab hba
    cases b with
    | nil => rfl
    | cons y ys => simp [lexLeB] at hba
  | cons x xs ih =>
    intro b hab hba
    cases b with
    | nil => simp [lexLeB] at hab
    | cons y ys =>
      simp only [lexLeB] at hab hba
      have hxy : x = y := by
        by_cases h1 : x < y
        · rw [if_neg (by omega), if_neg (by omega)] at hba
          cases hba
        · rw [if_neg h1] at hab
          by_cases h2 : x = y
          · exact h2
          · rw [if_neg h2] at hab
            cases hab
      subst hxy
      rw [if_neg (by omega), if_pos rfl] at hab hba
      rw [ih ys hab hba]

instance : IsTotal (List ℕ) revLexLe := ⟨fun a b => lexLeB_total a.reverse b.reverse⟩

instance : IsTrans (List ℕ) revLexLe :=
  ⟨fun _ _ _ hab hbc => lexLeB_trans _ _ _ hab hbc⟩

instance : IsAntisymm (List ℕ) revLexLe :=
  ⟨fun _ _ hab hba => List.reverse_injective (lexLeB_antisymm _ _ hab hba)⟩

/-- Two strictly sorted lists with the same members are equal. -/
theorem sorted_eq_of_mem_iff_gen {α : Type} {lt : α → α → Prop}
    (hasymm : ∀ a b, lt a b → ¬ lt b a) :
    ∀ {l1 l2 : List α}, l1.Pairwise lt → l2.Pairwise lt →
      (∀ x, x ∈ l1 ↔ x ∈ l2) → l1 = l2 := by
  intro l1
  induction l1 with
  | nil =>
    intro l2 _ _ hmem
    cases l2 with
    | nil => rfl
    | cons b t2 => exact absurd ((hmem b).2 (List.mem_cons_self _ _)) (List.not_mem_nil b)
  | cons a t1 ih =>
    intro l2 h1 h2 hmem
    cases l2 with
    | nil => exact absurd ((hmem a).1 (List.mem_cons_self _ _)) (List.not_mem_nil a)
    | cons b t2 =>
      have hab : a = b := by
        rcases List.mem_cons.1 ((hmem a).1 (List.mem_cons_self _ _)) with h | hat2
        · exact h
        · rcases List.mem_cons.1 ((hmem b).2 (List.mem_cons_self _ _)) with h | hbt1
          · exact h.symm
          · exact absurd ((List.pairwise_cons.1 h1).1 b hbt1)
              (hasymm _ _ ((List.pairwise_cons.1 h2).1 a hat2))
      subst hab
      have ht : ∀ x, x ∈ t1 ↔ x ∈ t2 := by
        intro x
        constructor
        · intro hx
          rcases List.mem_cons.1 ((hmem x).1 (List.mem_cons_of_mem _ hx)) with rfl | h
          · exact absurd ((List.pairwise_cons.1 h1).1 x hx) fun hc => hasymm _ _ hc hc
          · exact h
        · intro hx
          rcases List.mem_cons.1 ((hmem x).2 (List.mem_cons_of_mem _ hx)) with rfl | h
          · exact absurd ((List.pairwise_cons.1 h2).1 x hx) fun hc => hasymm _ _ hc hc
          · exact h
      rw [ih (List.pairwise_cons.1 h1).2 (List.pairwise_cons.1 h2).2 ht]

theorem count_deceq_eq (B : List (List ℕ)) (v : List ℕ) :
    @List.count (List ℕ) instBEqOfDecidableEq v B = B.count v := by
  induction B with
  | nil => rfl
  | cons a t ih =>
    rw [@List.count_cons (List ℕ) instBEqOfDecidableEq,
      @List.count_cons (List ℕ) List.instBEq, ih]
    congr 1
    rcases eq_or_ne a v with rfl | h
    · simp
    · simp [h]

/-- Membership in the class list built from a list `B` of label rows: one
class per distinct row, carrying its multiplicity in `B`. -/
theorem entries_mem_iff (B : List (List ℕ)) (j : ℕ) (cls : OClass) :
    (cls ∈ (chunks (fun r1 r2 : List ℕ => r1 == r2)
        (List.insertionSort revLexLe B)).map
      fun run => (run.length, (run.headD []).take j, (run.headD []).drop j)) ↔
    ∃ v ∈ B, cls = (B.count v, v.take j, v.drop j) := by
  rw [List.mem_map]
  constructor
  · rintro ⟨run, hrun, rfl⟩
    rw [runs_iff (fun r1 r2 : List ℕ => r1 == r2) (fun a b => beq_iff_eq) revLexLe] at hrun
    obtain ⟨v, hv, rfl⟩ := hrun
    rw [count_deceq_eq B v]
    refine ⟨v, hv, ?_⟩
    have hpos : 0 < B.count v := List.count_pos_iff.2 hv
    obtain ⟨n, hn⟩ : ∃ n, B.count v = n + 1 := ⟨B.count v - 1, by omega⟩
    rw [hn, List.replicate_succ]
    simp only [List.headD_cons, List.length_cons, List.length_replicate]
  · rintro ⟨v, hv, rfl⟩
    refine ⟨List.replicate (B.count v) v, ?_, ?_⟩
    · rw [runs_iff (fun r1 r2 : List ℕ => r1 == r2) (fun a b => beq_iff_eq) revLexLe]
      refine ⟨v, hv, ?_⟩
      rw [count_deceq_eq B v]
    · have hpos : 0 < B.count v := List.count_pos_iff.2 hv
      obtain ⟨n, hn⟩ : ∃ n, B.count v = n + 1 := ⟨B.count v - 1, by omega⟩
      rw [hn, List.replicate_succ]
      simp only [List.headD_cons, List.length_cons, List.length_replicate]

/-- The class list built from a list of label rows has no duplicates. -/
theorem entries_nodup (B : List (List ℕ)) (j : ℕ) :
    ((chunks (fun r1 r2 : List ℕ => r1 == r2)
        (List.insertionSort revLexLe B)).map
      fun run => (run.length, (run.headD []).take j, (run.headD []).drop j)).Nodup := by
  have hsorted : (List.insertionSort revLexLe B).Pairwise revLexLe :=
    List.sorted_insertionSort revLexLe B
  have hsymm : ∀ x y : List ℕ, (x == y) = true → (y == x) = true := fun x y h => by
    rw [beq_iff_eq] at h ⊢
    exact h.symm
  have htrans : ∀ x y z : List ℕ, (x == y) = true → (y == z) = true →
      (x == z) = true := fun x y z h1 h2 => by
    rw [beq_iff_eq] at h1 h2 ⊢
    exact h1.trans h2
  have hconv : ∀ x y z : List ℕ, revLexLe x y → revLexLe y z → (x == z) = true →
      (x == y) = true := fun x y z hxy hyz h => by
    rw [beq_iff_eq] at h ⊢
    subst h
    exact antisymm hxy hyz
  have hcross := chunks_pairwise_not hsymm htrans hconv hsorted
  show List.Pairwise (· ≠ ·) _
  rw [List.pairwise_map]
  refine hcross.imp_of_mem ?_
  intro r1 r2 h1 h2 hfalse heq
  obtain ⟨x1, t1, rfl⟩ := List.exists_cons_of_ne_nil (chunks_ne_nil h1)
  obtain ⟨x2, t2, rfl⟩ := List.exists_cons_of_ne_nil (chunks_ne_nil h2)
  have hx := hfalse x1 (List.mem_cons_self _ _) x2 (List.mem_cons_self _ _)
  simp only [List.headD_cons, Prod.mk.injEq] at heq
  obtain ⟨hlen, htake, hdrop⟩ := heq
  have hx12 : x1 = x2 := by
    rw [← List.take_append_drop j x1, ← List.take_append_drop j x2, htake, hdrop]
  rw [hx12, beq_self_eq_true] at hx
  cases hx

/-!
### Symmetry of the ijv pipeline (C8)

Swapping the two ijv listings flips the source tag of every unified row.
The sorted-and-dedupped array is then reshuffled (the source column is a
sort key), but each coordinate fiber keeps the same label multiset with its
ground-truth and test blocks exchanged, so the per-bucket class lists are
the `classSwap` images of the swapped buckets.
-/

/-- Effect on a unified row of exchanging the two ijv listings. -/
def flipRow (r : URow) : URow := ⟨r.pi, r.pj, r.lab, 1 - r.src⟩

theorem flipRow_mem_uRows {A B : List Triple} {mask : List MCoord} {r : URow}
    (hr : r ∈ uRows A B mask) : flipRow r ∈ uRows B A mask := by
  rw [uRows, List.mem_append, mem_mkURows, mem_mkURows] at hr ⊢
  rcases hr with ⟨t, ht, rfl⟩ | ⟨t, ht, rfl⟩
  · exact Or.inr ⟨t, ht, rfl⟩
  · exact Or.inl ⟨t, ht, rfl⟩

theorem flipRow_flipRow {r : URow} (h : r.src = 0 ∨ r.src = 1) :
    flipRow (flipRow r) = r := by
  obtain ⟨a, b, c, d⟩ := r
  simp only at h
  simp only [flipRow]
  congr 1
  omega

/-- The pixel coordinate of a unified row. -/
def coordOf (r : URow) : ℕ × ℕ := (r.pi, r.pj)

theorem coordOf_flipRow (r : URow) : coordOf (flipRow r) = coordOf r := rfl

/-- The coordinate order induced by the lexsort (column `j` is the primary
key). -/
def coordLt (c d : ℕ × ℕ) : Prop := c.2 < d.2 ∨ (c.2 = d.2 ∧ c.1 < d.1)

theorem coordLt_asymm (c d : ℕ × ℕ) (h1 : coordLt c d) : ¬ coordLt d c := by
  unfold coordLt at *
  omega

/-- The head row of a coordinate group. -/
def headRow (g : List URow) : URow := g.headD ⟨0, 0, 0, 0⟩

/-- The (sorted) list of distinct coordinates of `D`, one per group. -/
def coordsD (D : List URow) : List (ℕ × ℕ) :=
  (groupsD D).map fun g => coordOf (headRow g)

/-- All rows of `D` on the coordinate `c`. -/
def fiberD (D : List URow) (c : ℕ × ℕ) : List URow :=
  D.filter fun r => coordOf r == c

theorem sameCoord_refl (a : URow) : sameCoord a a = true := by
  simp [sameCoord]

theorem sameCoord_iff_coordOf {a b : URow} :
    sameCoord a b = true ↔ coordOf a = coordOf b := by
  simp [sameCoord, coordOf, Prod.ext_iff]

theorem headRow_mem {g : List URow} (hne : g ≠ []) : headRow g ∈ g := by
  obtain ⟨x, t, rfl⟩ := List.exists_cons_of_ne_nil hne
  exact List.mem_cons_self _ _

theorem groups_all_sameCoord {u : List URow} {g : List URow}
    (hg : g ∈ groupsD (pipeD u)) : ∀ x ∈ g, ∀ y ∈ g, sameCoord x y = true :=
  @chunk_all_rel URow sameCoord (fun _ _ h => sameCoord_symm h)
    (fun _ _ _ h1 h2 => sameCoord_trans h1 h2) sameCoord_refl (pipeD u) g hg

theorem pipeD_pairwise_le (u : List URow) : (pipeD u).Pairwise rowLe :=
  (sorted_pipeD u).imp fun h => by unfold rowLt rowLe at *; omega

theorem sameCoord_conv : ∀ x y z : URow, rowLe x y → rowLe y z →
    sameCoord x z = true → sameCoord x y = true := by
  intro x y z h1 h2 h3
  simp only [sameCoord, Bool.and_eq_true, beq_iff_eq] at h3 ⊢
  unfold rowLe at h1 h2
  omega

theorem groups_cross_not {u : List URow} :
    (groupsD (pipeD u)).Pairwise fun g g' =>
      ∀ x ∈ g, ∀ y ∈ g', sameCoord x y = false :=
  @chunks_pairwise_not URow sameCoord rowLe (fun _ _ h => sameCoord_symm h)
    (fun _ _ _ h1 h2 => sameCoord_trans h1 h2) sameCoord_conv (pipeD u)
    (pipeD_pairwise_le u)

/-- Each group of `pipeD u` is exactly the fiber of its coordinate. -/
theorem groups_fiber {u : List URow} {g : List URow}
    (hg : g ∈ groupsD (pipeD u)) :
    fiberD (pipeD u) (coordOf (headRow g)) = g := by
  have hh : headRow g ∈ g := headRow_mem (chunks_ne_nil hg)
  have hsymmf : ∀ x y : URow, sameCoord x y = false → sameCoord y x = false := by
    intro x y h
    cases hc : sameCoord y x
    · rfl
    · rw [sameCoord_symm hc] at h
      cases h
  have hfil := partition_filter hsymmf (groupsD (pipeD u))
    (fun g' hg' => groups_all_sameCoord hg') groups_cross_not g hg (headRow g) hh
  rw [show (groupsD (pipeD u)).flatten = pipeD u from
    chunks_flatten sameCoord (pipeD u)] at hfil
  rw [fiberD]
  conv_rhs => rw [← hfil]
  refine List.filter_congr fun r _ => ?_
  cases hc : sameCoord (headRow g) r
  · rw [beq_eq_false_iff_ne]
    intro he
    rw [sameCoord_iff_coordOf.2 he.symm] at hc
    cases hc
  · have hco := sameCoord_iff_coordOf.1 hc
    rw [hco]
    exact beq_self_eq_true _

theorem coordsD_pairwise (u : List URow) :
    (coordsD (pipeD u)).Pairwise coordLt := by
  rw [coordsD, List.pairwise_map]
  have hcross := @groups_cross_not u
  have h2 : (groupsD (pipeD u)).Pairwise fun g g' =>
      ∀ x ∈ g, ∀ y ∈ g', rowLt x y := by
    refine (List.pairwise_flatten.1 ?_).2
    rw [show (groupsD (pipeD u)).flatten = pipeD u from
      chunks_flatten sameCoord (pipeD u)]
    exact sorted_pipeD u
  refine (h2.and hcross).imp_of_mem ?_
  intro g g' hgm hg'm hp
  obtain ⟨hltall, hncall⟩ := hp
  have hh := headRow_mem (chunks_ne_nil hgm)
  have hh' := headRow_mem (chunks_ne_nil hg'm)
  have h1 := hltall _ hh _ hh'
  have hsc := hncall _ hh _ hh'
  have hne : ¬ ((headRow g).pi = (headRow g').pi ∧
      (headRow g).pj = (headRow g').pj) := by
    rintro ⟨ha, hb⟩
    have ht : sameCoord (headRow g) (headRow g') = true := by
      simp [sameCoord, ha, hb]
    rw [ht] at hsc
    cases hsc
  unfold rowLt at h1
  unfold coordLt coordOf
  simp only
  omega

theorem mem_coordsD {u : List URow} {c : ℕ × ℕ} :
    c ∈ coordsD (pipeD u) ↔ ∃ r ∈ pipeD u, coordOf r = c := by
  rw [coordsD, List.mem_map]
  constructor
  · rintro ⟨g, hg, rfl⟩
    exact ⟨headRow g,
      chunks_mem_of_mem_chunk hg (headRow_mem (chunks_ne_nil hg)), rfl⟩
  · rintro ⟨r, hr, rfl⟩
    have hrf : r ∈ (groupsD (pipeD u)).flatten := by
      rw [show (groupsD (pipeD u)).flatten = pipeD u from
        chunks_flatten sameCoord (pipeD u)]
      exact hr
    obtain ⟨g, hg, hrg⟩ := List.mem_flatten.1 hrf
    refine ⟨g, hg, ?_⟩
    exact sameCoord_iff_coordOf.1
      (groups_all_sameCoord hg (headRow g) (headRow_mem (chunks_ne_nil hg)) r hrg)

/-- The groups of `pipeD u` listed as the fibers of its sorted coordinate
list. -/
theorem groupsD_eq_map_fiber (u : List URow) :
    groupsD (pipeD u) = (coordsD (pipeD u)).map (fiberD (pipeD u)) := by
  rw [coordsD, List.map_map]
  conv_lhs => rw [← List.map_id (groupsD (pipeD u))]
  refine List.map_congr_left ?_
  intro g hg
  exact (groups_fiber hg).symm

theorem mem_fiberD {D : List URow} {c : ℕ × ℕ} {r : URow} :
    r ∈ fiberD D c ↔ r ∈ D ∧ coordOf r = c := by
  rw [fiberD, List.mem_filter, beq_iff_eq]

theorem pipeD_flip_mem {A B : List Triple} {mask : List MCoord} {r : URow}
    (hr : r ∈ pipeD (uRows A B mask)) :
    flipRow r ∈ pipeD (uRows B A mask) := by
  rw [mem_pipeD] at hr ⊢
  exact flipRow_mem_uRows hr

theorem fiberD_flip {A B : List Triple} {mask : List MCoord} {c : ℕ × ℕ}
    {r : URow} (hr : r ∈ fiberD (pipeD (uRows A B mask)) c) :
    flipRow r ∈ fiberD (pipeD (uRows B A mask)) c := by
  rw [mem_fiberD] at hr ⊢
  exact ⟨pipeD_flip_mem hr.1, by rw [coordOf_flipRow]; exact hr.2⟩

theorem fiber_pairwise (u : List URow) (c : ℕ × ℕ) :
    (fiberD (pipeD u) c).Pairwise fun a b =>
      rowLt a b ∧ sameCoord a b = true := by
  have h1 : (fiberD (pipeD u) c).Pairwise rowLt :=
    (sorted_pipeD u).sublist (List.filter_sublist _)
  refine h1.imp_of_mem ?_
  intro a b ha hb hab
  refine ⟨hab, sameCoord_iff_coordOf.2 ?_⟩
  rw [(mem_fiberD.1 ha).2, (mem_fiberD.1 hb).2]

theorem fiber_src_wf (gt test : List Triple) (mask : List MCoord) (c : ℕ × ℕ) :
    ∀ r ∈ fiberD (pipeD (uRows gt test mask)) c, r.src = 0 ∨ r.src = 1 :=
  fun r hr => uRows_src_wf gt test mask r ((mem_pipeD _ r).1 (mem_fiberD.1 hr).1)

/-- Exchanging the listings exchanges the two source blocks of each
coordinate fiber, label for label. -/
theorem fiber_lab_block (A B : List Triple) (mask : List MCoord) (c : ℕ × ℕ)
    (s t : ℕ) (hst : s + t = 1) :
    ((fiberD (pipeD (uRows A B mask)) c).filter fun r => r.src == s).map
        URow.lab =
      ((fiberD (pipeD (uRows B A mask)) c).filter fun r => r.src == t).map
        URow.lab := by
  have hasymm : ∀ a b : ℕ, a < b → ¬ b < a := fun a b h1 h2 => by omega
  refine sorted_eq_of_mem_iff_gen hasymm ?_ ?_ ?_
  · show List.Pairwise (· < ·) _
    rw [List.pairwise_map]
    refine ((fiber_pairwise (uRows A B mask) c).sublist
      (List.filter_sublist _)).imp_of_mem ?_
    intro a b ha hb hab
    have hsa : a.src = s := by simpa using List.of_mem_filter ha
    have hsb : b.src = s := by simpa using List.of_mem_filter hb
    obtain ⟨hlt, hsc⟩ := hab
    simp only [sameCoord, Bool.and_eq_true, beq_iff_eq] at hsc
    unfold rowLt at hlt
    omega
  · show List.Pairwise (· < ·) _
    rw [List.pairwise_map]
    refine ((fiber_pairwise (uRows B A mask) c).sublist
      (List.filter_sublist _)).imp_of_mem ?_
    intro a b ha hb hab
    have hsa : a.src = t := by simpa using List.of_mem_filter ha
    have hsb : b.src = t := by simpa using List.of_mem_filter hb
    obtain ⟨hlt, hsc⟩ := hab
    simp only [sameCoord, Bool.and_eq_true, beq_iff_eq] at hsc
    unfold rowLt at hlt
    omega
  · intro x
    simp only [List.mem_map, List.mem_filter]
    constructor
    · rintro ⟨r, ⟨hrf, hrs⟩, rfl⟩
      have hsrc : r.src = s := by simpa using hrs
      refine ⟨flipRow r, ⟨fiberD_flip hrf, ?_⟩, rfl⟩
      have hflip : (flipRow r).src = t := by
        simp only [flipRow]
        omega
      simp [hflip]
    · rintro ⟨r, ⟨hrf, hrs⟩, rfl⟩
      have hsrc : r.src = t := by simpa using hrs
      refine ⟨flipRow r, ⟨fiberD_flip hrf, ?_⟩, rfl⟩
      have hflip : (flipRow r).src = s := by
        simp only [flipRow]
        omega
      simp [hflip]

/-- Per-coordinate effect of exchanging the listings: the source counters
swap and the label row is rotated at the ground-truth block boundary. -/
theorem fiber_swap (gt test : List Triple) (mask : List MCoord) (c : ℕ × ℕ) :
    srcSum (fiberD (pipeD (uRows test gt mask)) c) =
        gtCount (fiberD (pipeD (uRows gt test mask)) c) ∧
      gtCount (fiberD (pipeD (uRows test gt mask)) c) =
        srcSum (fiberD (pipeD (uRows gt test mask)) c) ∧
      (fiberD (pipeD (uRows test gt mask)) c).map URow.lab =
        ((fiberD (pipeD (uRows gt test mask)) c).map URow.lab).drop
          (gtCount (fiberD (pipeD (uRows gt test mask)) c)) ++
        ((fiberD (pipeD (uRows gt test mask)) c).map URow.lab).take
          (gtCount (fiberD (pipeD (uRows gt test mask)) c)) := by
  have hwf := fiber_src_wf gt test mask c
  have hwf' := fiber_src_wf test gt mask c
  have hsrcle : (fiberD (pipeD (uRows gt test mask)) c).Pairwise
      fun a b => a.src ≤ b.src := by
    refine (fiber_pairwise (uRows gt test mask) c).imp fun {a b} h => ?_
    obtain ⟨hlt, hsc⟩ := h
    simp only [sameCoord, Bool.and_eq_true, beq_iff_eq] at hsc
    unfold rowLt at hlt
    omega
  have hsrcle' : (fiberD (pipeD (uRows test gt mask)) c).Pairwise
      fun a b => a.src ≤ b.src := by
    refine (fiber_pairwise (uRows test gt mask) c).imp fun {a b} h => ?_
    obtain ⟨hlt, hsc⟩ := h
    simp only [sameCoord, Bool.and_eq_true, beq_iff_eq] at hsc
    unfold rowLt at hlt
    omega
  have hsplit := split_by_src _ hsrcle hwf
  have hsplit' := split_by_src _ hsrcle' hwf'
  have hs1 := srcSum_eq_filter_length _ hwf
  have hs1' := srcSum_eq_filter_length _ hwf'
  have hb0 := fiber_lab_block test gt mask c 0 1 (by omega)
  have hb1 := fiber_lab_block test gt mask c 1 0 (by omega)
  have htot : (fiberD (pipeD (uRows gt test mask)) c).length =
      ((fiberD (pipeD (uRows gt test mask)) c).filter
        fun r => r.src == 0).length +
      ((fiberD (pipeD (uRows gt test mask)) c).filter
        fun r => r.src == 1).length := by
    conv_lhs => rw [hsplit]
    rw [List.length_append]
  have htot' : (fiberD (pipeD (uRows test gt mask)) c).length =
      ((fiberD (pipeD (uRows test gt mask)) c).filter
        fun r => r.src == 0).length +
      ((fiberD (pipeD (uRows test gt mask)) c).filter
        fun r => r.src == 1).length := by
    conv_lhs => rw [hsplit']
    rw [List.length_append]
  have hlen01 : ((fiberD (pipeD (uRows test gt mask)) c).filter
      fun r => r.src == 0).length =
      ((fiberD (pipeD (uRows gt test mask)) c).filter
        fun r => r.src == 1).length := by
    have := congrArg List.length hb0
    simpa using this
  have hlen10 : ((fiberD (pipeD (uRows test gt mask)) c).filter
      fun r => r.src == 1).length =
      ((fiberD (pipeD (uRows gt test mask)) c).filter
        fun r => r.src == 0).length := by
    have := congrArg List.length hb1
    simpa using this
  have hgt0 : gtCount (fiberD (pipeD (uRows gt test mask)) c) =
      ((fiberD (pipeD (uRows gt test mask)) c).filter
        fun r => r.src == 0).length := by
    rw [gtCount]
    omega
  refine ⟨?_, ?_, ?_⟩
  · rw [hs1', hlen10, ← hgt0]
  · rw [gtCount, htot', hlen01, hlen10, hs1', hlen10, hs1]
    omega
  · have hmap : (fiberD (pipeD (uRows test gt mask)) c).map URow.lab =
        ((fiberD (pipeD (uRows gt test mask)) c).filter
          (fun r => r.src == 1)).map URow.lab ++
        ((fiberD (pipeD (uRows gt test mask)) c).filter
          (fun r => r.src == 0)).map URow.lab := by
      conv_lhs => rw [hsplit']
      rw [List.map_append, hb0, hb1]
    have hmapg : (fiberD (pipeD (uRows gt test mask)) c).map URow.lab =
        ((fiberD (pipeD (uRows gt test mask)) c).filter
          (fun r => r.src == 0)).map URow.lab ++
        ((fiberD (pipeD (uRows gt test mask)) c).filter
          (fun r => r.src == 1)).map URow.lab := by
      conv_lhs => rw [hsplit]
      rw [List.map_append]
    have hglen : gtCount (fiberD (pipeD (uRows gt test mask)) c) =
        (((fiberD (pipeD (uRows gt test mask)) c).filter
          (fun r => r.src == 0)).map URow.lab).length := by
      rw [List.length_map, ← hgt0]
    rw [hmap, hmapg, hglen, List.take_left, List.drop_left]

theorem coordsD_swap (gt test : List Triple) (mask : List MCoord) :
    coordsD (pipeD (uRows test gt mask)) =
      coordsD (pipeD (uRows gt test mask)) := by
  refine sorted_eq_of_mem_iff_gen coordLt_asymm (coordsD_pairwise _)
    (coordsD_pairwise _) ?_
  intro c
  rw [mem_coordsD, mem_coordsD]
  constructor
  · rintro ⟨r, hr, rfl⟩
    exact ⟨flipRow r, pipeD_flip_mem hr, rfl⟩
  · rintro ⟨r, hr, rfl⟩
    exact ⟨flipRow r, pipeD_flip_mem hr, rfl⟩

/-- The label rows feeding bucket `(i, j)` (one row per coordinate group
with `count_test = i`, `count_gt = j`). -/
def bucketRows (D : List URow) (i j : ℕ) : List (List ℕ) :=
  ((groupsD D).filter fun g => srcSum g == i && gtCount g == j).map
    fun g => g.map URow.lab

theorem bucketEntries_eq (D : List URow) (i j : ℕ) :
    bucketEntries D i j =
      (chunks (fun r1 r2 : List ℕ => r1 == r2)
        (List.insertionSort revLexLe (bucketRows D i j))).map
        fun run => (run.length, (run.headD []).take j, (run.headD []).drop j) :=
  rfl

/-- Exchanging the listings sends bucket `(i, j)` to bucket `(j, i)` with
every label row rotated at the ground-truth block boundary. -/
theorem bucketRows_swap (gt test : List Triple) (mask : List MCoord)
    (i j : ℕ) :
    bucketRows (pipeD (uRows test gt mask)) i j =
      (bucketRows (pipeD (uRows gt test mask)) j i).map
        fun v => v.drop i ++ v.take i := by
  rw [bucketRows, bucketRows,
    groupsD_eq_map_fiber (uRows test gt mask),
    groupsD_eq_map_fiber (uRows gt test mask),
    coordsD_swap gt test mask]
  simp only [List.filter_map, List.map_map]
  have hfc : ∀ c ∈ coordsD (pipeD (uRows gt test mask)),
      ((fun g => srcSum g == i && gtCount g == j) ∘
        fiberD (pipeD (uRows test gt mask))) c =
      ((fun g => srcSum g == j && gtCount g == i) ∘
        fiberD (pipeD (uRows gt test mask))) c := by
    intro c _
    simp only [Function.comp_apply]
    obtain ⟨h1, h2, _⟩ := fiber_swap gt test mask c
    rw [h1, h2, Bool.and_comm]
  rw [List.filter_congr hfc]
  refine List.map_congr_left ?_
  intro c hc
  simp only [Function.comp_apply]
  obtain ⟨h1, h2, h3⟩ := fiber_swap gt test mask c
  have hcond := List.of_mem_filter hc
  simp only [Function.comp_apply, Bool.and_eq_true, beq_iff_eq] at hcond
  rw [h3, hcond.2]

theorem bucketRows_length (gt test : List Triple) (mask : List MCoord)
    (i j : ℕ) :
    ∀ v ∈ bucketRows (pipeD (uRows gt test mask)) i j, v.length = i + j := by
  intro v hv
  rw [bucketRows, List.mem_map] at hv
  obtain ⟨g, hgf, rfl⟩ := hv
  have hg := List.mem_of_mem_filter hgf
  have hcond := List.of_mem_filter hgf
  simp only [Bool.and_eq_true, beq_iff_eq] at hcond
  have hwf : ∀ r ∈ g, r.src = 0 ∨ r.src = 1 :=
    group_src_wf (uRows_src_wf gt test mask) hg
  have hs := srcSum_eq_filter_length g hwf
  have hle : (g.filter fun r => r.src == 1).length ≤ g.length :=
    List.length_filter_le _ _
  rw [List.length_map]
  obtain ⟨hc1, hc2⟩ := hcond
  unfold gtCount at hc2
  omega

theorem maxCT_swap (gt test : List Triple) (mask : List MCoord) :
    maxCT_D (pipeD (uRows test gt mask)) =
      maxCG_D (pipeD (uRows gt test mask)) := by
  rw [maxCT_D, maxCG_D, groupsD_eq_map_fiber (uRows test gt mask),
    groupsD_eq_map_fiber (uRows gt test mask), coordsD_swap gt test mask]
  simp only [List.map_map]
  congr 1
  refine List.map_congr_left ?_
  intro c _
  simp only [Function.comp_apply]
  exact (fiber_swap gt test mask c).1

theorem maxCG_swap (gt test : List Triple) (mask : List MCoord) :
    maxCG_D (pipeD (uRows test gt mask)) =
      maxCT_D (pipeD (uRows gt test mask)) := by
  rw [maxCG_D, maxCT_D, groupsD_eq_map_fiber (uRows test gt mask),
    groupsD_eq_map_fiber (uRows gt test mask), coordsD_swap gt test mask]
  simp only [List.map_map]
  congr 1
  refine List.map_congr_left ?_
  intro c _
  simp only [Function.comp_apply]
  exact (fiber_swap gt test mask c).2.1

theorem bucketEntries_swap_mem (gt test : List Triple) (mask : List MCoord)
    (i j : ℕ) (cls : OClass) :
    cls ∈ bucketEntries (pipeD (uRows test gt mask)) i j ↔
      classSwap cls ∈ bucketEntries (pipeD (uRows gt test mask)) j i := by
  rw [bucketEntries_eq, bucketEntries_eq, entries_mem_iff, entries_mem_iff,
    bucketRows_swap gt test mask i j]
  have hlen := bucketRows_length gt test mask j i
  have hrot : ∀ w ∈ bucketRows (pipeD (uRows gt test mask)) j i,
      (w.drop i ++ w.take i).take j = w.drop i ∧
        (w.drop i ++ w.take i).drop j = w.take i := by
    intro w hw
    have hl := hlen w hw
    have hdl : (w.drop i).length = j := by
      rw [List.length_drop]
      omega
    constructor
    · rw [← hdl, List.take_left]
    · rw [← hdl, List.drop_left]
  have hcnt : ∀ w ∈ bucketRows (pipeD (uRows gt test mask)) j i,
      ((bucketRows (pipeD (uRows gt test mask)) j i).map
        fun v => v.drop i ++ v.take i).count (w.drop i ++ w.take i) =
      (bucketRows (pipeD (uRows gt test mask)) j i).count w := by
    intro w hw
    rw [List.count_eq_countP, List.count_eq_countP, List.countP_map]
    refine List.countP_congr ?_
    intro x hx
    simp only [Function.comp_apply]
    rcases eq_or_ne x w with rfl | hne
    · simp
    · have hσne : x.drop i ++ x.take i ≠ w.drop i ++ w.take i := by
        intro he
        apply hne
        have h1 := congrArg (List.take j) he
        have h2 := congrArg (List.drop j) he
        rw [(hrot x hx).1, (hrot w hw).1] at h1
        rw [(hrot x hx).2, (hrot w hw).2] at h2
        rw [← List.take_append_drop i x, ← List.take_append_drop i w, h1, h2]
      simp [hne, hσne]
  constructor
  · rintro ⟨v, hv, rfl⟩
    rw [List.mem_map] at hv
    obtain ⟨w, hw, rfl⟩ := hv
    refine ⟨w, hw, ?_⟩
    rw [classSwap]
    simp only
    rw [hcnt w hw, (hrot w hw).1, (hrot w hw).2]
  · rintro ⟨w, hw, hcls⟩
    refine ⟨w.drop i ++ w.take i, List.mem_map_of_mem _ hw, ?_⟩
    obtain ⟨c1, c2, c3⟩ := cls
    simp only [classSwap, Prod.mk.injEq] at hcls
    obtain ⟨e1, e2, e3⟩ := hcls
    rw [hcnt w hw, (hrot w hw).1, (hrot w hw).2]
    simp [e1, e2, e3]

theorem labelsD_swap_mem (gt test : List Triple) (mask : List MCoord)
    (cls : OClass) :
    cls ∈ labelsD (pipeD (uRows test gt mask)) ↔
      classSwap cls ∈ labelsD (pipeD (uRows gt test mask)) := by
  rw [labelsD, labelsD]
  simp only [List.mem_flatMap]
  constructor
  · rintro ⟨i, hi, j, hj, hcls⟩
    rw [maxCT_swap gt test mask] at hi
    rw [maxCG_swap gt test mask] at hj
    exact ⟨j, hj, i, hi, (bucketEntries_swap_mem gt test mask i j cls).1 hcls⟩
  · rintro ⟨j, hj, i, hi, hcls⟩
    refine ⟨i, ?_, j, ?_, (bucketEntries_swap_mem gt test mask i j cls).2 hcls⟩
    · rw [maxCT_swap gt test mask]
      exact hi
    · rw [maxCG_swap gt test mask]
      exact hj

theorem bucketEntries_len (gt test : List Triple) (mask : List MCoord)
    (i j : ℕ) (cls : OClass)
    (h : cls ∈ bucketEntries (pipeD (uRows gt test mask)) i j) :
    cls.2.1.length = j ∧ cls.2.2.length = i := by
  rw [bucketEntries_eq, entries_mem_iff] at h
  obtain ⟨v, hv, rfl⟩ := h
  have hl := bucketRows_length gt test mask i j v hv
  constructor
  · simp only [List.length_take]
    omega
  · simp only [List.length_drop]
    omega

theorem labelsD_nodup (gt test : List Triple) (mask : List MCoord) :
    (labelsD (pipeD (uRows gt test mask))).Nodup := by
  rw [labelsD]
  rw [List.nodup_flatMap]
  constructor
  · intro i _
    rw [List.nodup_flatMap]
    constructor
    · intro j _
      rw [bucketEntries_eq]
      exact entries_nodup _ j
    · have hnd : (List.range' 1
          (maxCG_D (pipeD (uRows gt test mask)))).Pairwise (· ≠ ·) :=
        List.nodup_range' 1 _
      refine hnd.imp ?_
      intro a b hne cls hc1 hc2
      have h1 := (bucketEntries_len gt test mask i a cls hc1).1
      have h2 := (bucketEntries_len gt test mask i b cls hc2).1
      omega
  · have hnd : (List.range' 1
        (maxCT_D (pipeD (uRows gt test mask)))).Pairwise (· ≠ ·) :=
      List.nodup_range' 1 _
    refine hnd.imp ?_
    intro a b hne cls hc1 hc2
    rw [List.mem_flatMap] at hc1 hc2
    obtain ⟨j1, _, hm1⟩ := hc1
    obtain ⟨j2, _, hm2⟩ := hc2
    have h1 := (bucketEntries_len gt test mask a j1 cls hm1).2
    have h2 := (bucketEntries_len gt test mask b j2 cls hm2).2
    omega

/-- Exchanging the listings permutes the class list into its `classSwap`
image. -/
theorem pipeLabels_swap_perm (gt test : List Triple) (mask : List MCoord) :
    List.Perm (pipeLabels (uRows test gt mask))
      ((pipeLabels (uRows gt test mask)).map classSwap) := by
  have hnd1 : (pipeLabels (uRows test gt mask)).Nodup := labelsD_nodup test gt mask
  have hnd2 : ((pipeLabels (uRows gt test mask)).map classSwap).Nodup := by
    refine List.Nodup.map ?_ (labelsD_nodup gt test mask)
    intro a b hab
    obtain ⟨a1, a2, a3⟩ := a
    obtain ⟨b1, b2, b3⟩ := b
    simp only [classSwap, Prod.mk.injEq] at hab
    simp only [Prod.mk.injEq]
    exact ⟨hab.1, hab.2.2, hab.2.1⟩
  rw [List.perm_ext_iff_of_nodup hnd1 hnd2]
  intro cls
  rw [List.mem_map]
  constructor
  · intro h
    refine ⟨classSwap cls, (labelsD_swap_mem gt test mask cls).1 h, ?_⟩
    obtain ⟨c1, c2, c3⟩ := cls
    rfl
  · rintro ⟨y, hy, rfl⟩
    refine (labelsD_swap_mem gt test mask (classSwap y)).2 ?_
    obtain ⟨c1, c2, c3⟩ := y
    exact hy

theorem max_t_labels_swap (gt test : List Triple) (mask : List MCoord) :
    max_t_labels (pipeLabels (uRows test gt mask)) =
      max_g_labels (pipeLabels (uRows gt test mask)) := by
  rw [max_t_labels, max_g_labels,
    maxList_perm ((pipeLabels_swap_perm gt test mask).map _), List.map_map]
  rfl

theorem max_g_labels_swap (gt test : List Triple) (mask : List MCoord) :
    max_g_labels (pipeLabels (uRows test gt mask)) =
      max_t_labels (pipeLabels (uRows gt test mask)) := by
  rw [max_g_labels, max_t_labels,
    maxList_perm ((pipeLabels_swap_perm gt test mask).map _), List.map_map]
  rfl

theorem min_JK_swap (gt test : List Triple) (mask : List MCoord) :
    min_JK (pipeLabels (uRows test gt mask)) =
      min_JK (pipeLabels (uRows gt test mask)) := by
  rw [min_JK, min_JK, max_t_labels_swap gt test mask,
    max_g_labels_swap gt test mask, Nat.min_comm]

theorem tblList_swap_all (gt test : List Triple) (mask : List MCoord)
    (a b : ℕ) :
    tblList (pipeLabels (uRows test gt mask)) a b =
      tblList (pipeLabels (uRows gt test mask)) b a := by
  rw [tblList_perm (pipeLabels_swap_perm gt test mask) a b,
    tblList_map_classSwap]

theorem N_tbl_swap (gt test : List Triple) (mask : List MCoord) :
    N_tbl (pipeLabels (uRows test gt mask)) =
      N_tbl (pipeLabels (uRows gt test mask)) := by
  rw [N_tbl, N_tbl, max_t_labels_swap gt test mask,
    max_g_labels_swap gt test mask]
  simp only [tblList_swap_all gt test mask]
  exact Finset.sum_comm

theorem randNum_swap (gt test : List Triple) (mask : List MCoord) :
    randNum (pipeLabels (uRows test gt mask)) =
      randNum (pipeLabels (uRows gt test mask)) := by
  rw [randNum, randNum, min_JK_swap gt test mask]
  exact Finset.sum_congr rfl fun a _ => tblList_swap_all gt test mask a a

theorem eOmegaNum_swap (gt test : List Triple) (mask : List MCoord) :
    eOmegaNum (pipeLabels (uRows test gt mask)) =
      eOmegaNum (pipeLabels (uRows gt test mask)) := by
  rw [eOmegaNum, eOmegaNum, min_JK_swap gt test mask]
  simp only [tblList_swap_all gt test mask]
  exact Finset.sum_congr rfl fun a _ => mul_comm _ _

theorem ijv_swap (gt test : List Triple) (mask : List MCoord) :
    compute_rand_index_ijv test gt mask =
      compute_rand_index_ijv gt test mask := by
  rw [compute_rand_index_ijv, compute_rand_index_ijv, pipeOutputs, pipeOutputs,
    randNum_swap gt test mask, N_tbl_swap gt test mask,
    eOmegaNum_swap gt test mask]

/-- **C8.**  Both Rand-index implementations are symmetric in their two
labelings: swapping the ground-truth and test label pair list passed to
`compute_rand_index`, or swapping the ground-truth and test ijv listings
passed to `compute_rand_index_ijv`, yields identical `rand_index` and
`adjusted_rand_index` values. -/
theorem c8_symmetry :
    (∀ px : List LPair,
      compute_rand_index (px.map Prod.swap) = compute_rand_index px) ∧
    ∀ (gt test : List Triple) (mask : List MCoord),
      compute_rand_index_ijv test gt mask =
        compute_rand_index_ijv gt test mask :=
  ⟨compute_rand_index_swap, fun gt test mask => ijv_swap gt test mask⟩

end ImageOverlap
